import Mathlib

/-
A shallow embedding of the progress-tracking core of the timely-dataflow
repository, file src/progress/subgraph.rs, together with models of the
supporting containers (CountMap, Antichain, MutableAntichain) that the
code uses but whose sources are not part of this snapshot; those are
modelled from the specification, as marked on each definition.

Machine integers (u64, i64) are embedded as Nat and Int; the code never
relies on wrap-around for these values.
-/

set_option maxHeartbeats 1000000

namespace Timely

/-- From subgraph.rs (enum Source): identity of a producing port. -/
inductive Source where
  | GraphInput : Nat → Source
  | ScopeOutput : Nat → Nat → Source
deriving DecidableEq

/-- From subgraph.rs (enum Target): identity of a consuming port. -/
inductive Target where
  | GraphOutput : Nat → Target
  | ScopeInput : Nat → Nat → Target
deriving DecidableEq

/-- From subgraph.rs (enum Summary<S, T>): a path summary for a product
timestamp, either staying inside the scope (Local) or leaving and
re-entering through the outer scope (Outer). -/
inductive Summary (S T : Type) where
  | Local : T → Summary S T
  | Outer : S → T → Summary S T
deriving DecidableEq

/-- The operations the Rust trait bounds Timestamp/PathSummary/Default supply
for one coordinate: the default timestamp, the default summary, the action of
a summary on a timestamp, and the composition of summaries. The embedding is
parametric in these, as the Rust code is generic in TOuter/TInner and their
summary types. -/
structure PathOps (T S : Type) where
  dflt_time : T
  dflt_sum : S
  results_in : S → T → T
  followed_by : S → S → S

/-- From subgraph.rs (impl Default for Summary): the default product summary is
Local of the default inner summary. -/
def Summary.dflt (pin : PathOps TI SI) : Summary SO SI := .Local pin.dflt_sum

/-- From subgraph.rs (PathSummary for Summary, fn results_in). -/
def Summary.results_in (po : PathOps TO SO) (pin : PathOps TI SI) :
    Summary SO SI → TO × TI → TO × TI
  | .Local iters, (outer, inner) => (outer, pin.results_in iters inner)
  | .Outer s iters, (outer, _) => (po.results_in s outer, pin.results_in iters pin.dflt_time)

/-- From subgraph.rs (PathSummary for Summary, fn followed_by). -/
def Summary.followed_by (po : PathOps TO SO) (pin : PathOps TI SI) :
    Summary SO SI → Summary SO SI → Summary SO SI
  | .Local i1, .Local i2 => .Local (pin.followed_by i1 i2)
  | .Local _, .Outer o2 i2 => .Outer o2 i2
  | .Outer o1 i1, .Local i2 => .Outer o1 (pin.followed_by i1 i2)
  | .Outer o1 _, .Outer o2 i2 => .Outer (po.followed_by o1 o2) i2

/-- From subgraph.rs (impl PartialOrd for Summary): Local compares by the inner
component, Local is below Outer, and Outer compares lexicographically (the
derived tuple order of Rust). -/
def Summary.partial_cmp (pco : SO → SO → Option Ordering) (pci : SI → SI → Option Ordering) :
    Summary SO SI → Summary SO SI → Option Ordering
  | .Local t1, .Local t2 => pci t1 t2
  | .Local _, .Outer _ _ => some .lt
  | .Outer s1 t1, .Outer s2 t2 =>
      match pco s1 s2 with
      | some .eq => pci t1 t2
      | c => c
  | .Outer _ _, .Local _ => some .gt

/-- Rust PartialOrd::le: the comparison yields Less or Equal. -/
def leOfCmp (pc : A → A → Option Ordering) (a b : A) : Bool :=
  match pc a b with
  | some .lt => true
  | some .eq => true
  | _ => false

/-- Modelled from the spec: CountMap is a mapping T → i64 kept as a vector of
pairs, with the invariant that entries equal to 0 are removed on update; it
supports update, pop and clear. The spec leaves unspecified which entry pop
drains first; this model pops from the front. -/
structure CountMap (T : Type) where
  elems : List (T × Int)
deriving DecidableEq

/-- Update helper on the underlying pair list: add v to the entry with key t,
removing it when the resulting count is 0, appending a fresh nonzero entry
when the key is absent. -/
def updatePairs [DecidableEq T] : List (T × Int) → T → Int → List (T × Int)
  | [], t, v => if v = 0 then [] else [(t, v)]
  | (k, c) :: rest, t, v =>
    if k = t then (if c + v = 0 then rest else (k, c + v) :: rest)
    else (k, c) :: updatePairs rest t v

def CountMap.update [DecidableEq T] (cm : CountMap T) (t : T) (v : Int) : CountMap T :=
  ⟨updatePairs cm.elems t v⟩

def CountMap.empty : CountMap T := ⟨[]⟩

def CountMap.clear (_ : CountMap T) : CountMap T := ⟨[]⟩

/-- Replace the element at index i by f applied to it; out of bounds, the list
is unchanged (the Rust code would panic there, so claims only exercise the
in-bounds case). -/
def listUpd : List A → Nat → (A → A) → List A
  | [], _, _ => []
  | a :: l, 0, f => f a :: l
  | a :: l, n + 1, f => a :: listUpd l n f

/-- Update a doubly-indexed table at row i, column j. -/
def upd2 (l : List (List A)) (i j : Nat) (f : A → A) : List (List A) :=
  listUpd l i (fun row => listUpd row j f)

/-- Read a doubly-indexed table at row i, column j, with default d. -/
def get2 (l : List (List A)) (i j : Nat) (d : A) : A := (l.getD i []).getD j d

/-- Modelled from the spec: Antichain keeps the minimal elements of the set of
inserted values under the partial order le; insert x adds x exactly when no
current element is le x, removes every current element that x is le, and
reports whether it added. -/
structure Antichain (T : Type) where
  elements : List T
deriving DecidableEq

def Antichain.insert (le : T → T → Bool) (a : Antichain T) (x : T) : Antichain T × Bool :=
  if a.elements.any (fun e => le e x) then (a, false)
  else (⟨a.elements.filter (fun e => !(le x e)) ++ [x]⟩, true)

def Antichain.from_elem (x : T) : Antichain T := ⟨[x]⟩

def Antichain.empty : Antichain T := ⟨[]⟩

/-- From subgraph.rs (fn try_to_add_summary): insert the summary into the
antichain of the first entry carrying the target, appending a fresh
(target, singleton) entry when no entry carries it; reports whether anything
was added. -/
def try_to_add_summary (le : S → S → Bool) :
    List (Target × Antichain S) → Target → S → List (Target × Antichain S) × Bool
  | [], target, summary => ([(target, Antichain.from_elem summary)], true)
  | (t, a) :: rest, target, summary =>
    if target = t then
      let pr := a.insert le summary
      ((t, pr.1) :: rest, pr.2)
    else
      let pr := try_to_add_summary le rest target summary
      ((t, a) :: pr.1, pr.2)

/-- From subgraph.rs (struct PointstampCounter): per-(scope, port) and
per-graph-port buffers of timestamp count updates. -/
structure PointstampCounter (T : Type) where
  source_counts : List (List (CountMap T))
  target_counts : List (List (CountMap T))
  input_counts : List (CountMap T)
  target_pushed : List (List (CountMap T))
  output_pushed : List (CountMap T)
deriving DecidableEq

/-- From subgraph.rs (PointstampCounter::update_target): a ScopeInput target
updates target_counts[scope][input]; a GraphOutput target only prints a
diagnostic and changes no buffer. -/
def PointstampCounter.update_target [DecidableEq T] (ps : PointstampCounter T)
    (target : Target) (time : T) (value : Int) : PointstampCounter T :=
  match target with
  | .ScopeInput scope input =>
      { ps with target_counts := upd2 ps.target_counts scope input (fun cm => cm.update time value) }
  | .GraphOutput _ => ps

/-- From subgraph.rs (PointstampCounter::update_source). -/
def PointstampCounter.update_source [DecidableEq T] (ps : PointstampCounter T)
    (source : Source) (time : T) (value : Int) : PointstampCounter T :=
  match source with
  | .ScopeOutput scope output =>
      { ps with source_counts := upd2 ps.source_counts scope output (fun cm => cm.update time value) }
  | .GraphInput input =>
      { ps with input_counts := listUpd ps.input_counts input (fun cm => cm.update time value) }

/-- From subgraph.rs (PointstampCounter::clear_pushed). -/
def PointstampCounter.clear_pushed (ps : PointstampCounter T) : PointstampCounter T :=
  { ps with target_pushed := ps.target_pushed.map (fun row => row.map CountMap.clear),
            output_pushed := ps.output_pushed.map CountMap.clear }

/-- The concrete PathOps instance on Nat used by witnesses: summaries are
increments, acting by addition. -/
def natOps : PathOps Nat Nat :=
  { dflt_time := 0, dflt_sum := 0, results_in := fun s t => t + s, followed_by := fun a b => a + b }

/-- Modelled from the spec: MutableAntichain is a reference-counted multiset of
times (occurrences) together with its derived frontier (elements), the minimal
elements among the times with positive count. -/
structure MutableAntichain (T : Type) where
  occurrences : CountMap T
  elements : List T
deriving DecidableEq

/-- The frontier of a count list: the keys of positive count that no other
positive-count key is strictly below. -/
def frontierOf (le : T → T → Bool) (occ : List (T × Int)) : List T :=
  let pos := (occ.filter (fun e => decide (0 < e.2))).map Prod.fst
  pos.filter (fun x => !(pos.any (fun y => le y x && !(le x y))))

def MutableAntichain.new : MutableAntichain T := ⟨⟨[]⟩, []⟩

/-- Modelled from the spec: update_and applies (t, v) to the occurrence counts
and reports every resulting frontier change (an element that dropped out of the
frontier as count -1, one that appeared as count +1); the callback of the Rust
code is represented by returning the list of changes it would be invoked on. -/
def MutableAntichain.update_and [DecidableEq T] (le : T → T → Bool)
    (ma : MutableAntichain T) (t : T) (v : Int) : MutableAntichain T × List (T × Int) :=
  let occ := ma.occurrences.update t v
  let fr := frontierOf le occ.elems
  let removed := (ma.elements.filter (fun e => decide (e ∉ fr))).map (fun e => (e, (-1 : Int)))
  let added := (fr.filter (fun e => decide (e ∉ ma.elements))).map (fun e => (e, (1 : Int)))
  (⟨occ, fr⟩, removed ++ added)

/-- Modelled from the spec: plain update, discarding the frontier changes. -/
def MutableAntichain.update [DecidableEq T] (le : T → T → Bool)
    (ma : MutableAntichain T) (t : T) (v : Int) : MutableAntichain T :=
  (ma.update_and le t v).1

/-- Modelled from the spec: update_into_cm applies a whole CountMap of changes
to the occurrence counts and accumulates the net frontier change into out. -/
def MutableAntichain.update_into_cm [DecidableEq T] (le : T → T → Bool)
    (ma : MutableAntichain T) (delta : CountMap T) (out : CountMap T) :
    MutableAntichain T × CountMap T :=
  let occ := delta.elems.foldl (fun o e => CountMap.update o e.1 e.2) ma.occurrences
  let fr := frontierOf le occ.elems
  let out1 := (ma.elements.filter (fun e => decide (e ∉ fr))).foldl
    (fun cm e => cm.update e (-1)) out
  let out2 := (fr.filter (fun e => decide (e ∉ ma.elements))).foldl
    (fun cm e => cm.update e 1) out1
  (⟨occ, fr⟩, out2)

/-- From subgraph.rs (struct ScopeWrapper): the per-child bookkeeping of a
subgraph. The boxed child scope itself is opaque; calls into it are
represented by oracle parameters at the call sites. -/
structure ScopeWrapperSt (TO TI SO SI : Type) where
  index : Nat
  inputs : Nat
  outputs : Nat
  edges : List (List Target)
  notify : Bool
  summary : List (List (Antichain (Summary SO SI)))
  guarantees : List (MutableAntichain (TO × TI))
  capabilities : List (MutableAntichain (TO × TI))
  outstanding_messages : List (MutableAntichain (TO × TI))
  internal_progress : List (CountMap (TO × TI))
  consumed_messages : List (CountMap (TO × TI))
  produced_messages : List (CountMap (TO × TI))
  guarantee_changes : List (CountMap (TO × TI))
deriving DecidableEq

/-- An all-empty wrapper, used as the default of out-of-bounds child reads
(which the Rust code would panic on). -/
def dummyWrapper : ScopeWrapperSt TO TI SO SI :=
  ⟨0, 0, 0, [], false, [], [], [], [], [], [], [], []⟩

/-- From subgraph.rs (struct Subgraph): the scope state. The progcaster is
opaque communication and appears as an oracle parameter of
pull_internal_progress rather than as a field. -/
structure SubgraphSt (TO TI SO SI : Type) where
  index : Nat
  default_summary : Summary SO SI
  inputs : Nat
  outputs : Nat
  input_edges : List (List Target)
  external_summaries : List (List (Antichain SO))
  source_summaries : List (List (List (Target × Antichain (Summary SO SI))))
  target_summaries : List (List (List (Target × Antichain (Summary SO SI))))
  input_summaries : List (List (Target × Antichain (Summary SO SI)))
  external_capability : List (MutableAntichain TO)
  external_guarantee : List (MutableAntichain TO)
  children : List (ScopeWrapperSt TO TI SO SI)
  input_messages : List (CountMap (TO × TI))
  pointstamps : PointstampCounter (TO × TI)
  pointstamp_messages_cm : CountMap (Nat × Nat × (TO × TI))
  pointstamp_internal_cm : CountMap (Nat × Nat × (TO × TI))
  pointstamp_messages : List (Nat × Nat × (TO × TI) × Int)
  pointstamp_internal : List (Nat × Nat × (TO × TI) × Int)
deriving DecidableEq

/-- From subgraph.rs (Subgraph::connect, GraphInput arm): grow input_edges with
empty rows while it is shorter than input + 1. -/
def padInputEdges (edges : List (List Target)) (n : Nat) : List (List Target) :=
  if h : edges.length < n then padInputEdges (edges ++ [[]]) n else edges
termination_by n - edges.length
decreasing_by simp; omega

/-- From subgraph.rs (Subgraph::connect): a ScopeOutput source appends the
target to that child's edge list for the output; a GraphInput source pads
input_edges to length input + 1 and appends the target at index input. -/
def Subgraph.connect (s : SubgraphSt TO TI SO SI) (source : Source) (target : Target) :
    SubgraphSt TO TI SO SI :=
  match source with
  | .ScopeOutput scope index =>
      let addE := fun (w : ScopeWrapperSt TO TI SO SI) =>
        { w with edges := listUpd w.edges index (fun v => v ++ [target]) }
      { s with children := listUpd s.children scope addE }
  | .GraphInput input =>
      let padded := padInputEdges s.input_edges (input + 1)
      { s with input_edges := listUpd padded input (fun v => v ++ [target]) }

/-- From subgraph.rs (Subgraph::get_internal_summary): the projection applied
to each product summary before inserting into the returned table. -/
def projOuter (dflt_so : SO) : Summary SO SI → SO
  | .Local _ => dflt_so
  | .Outer y _ => y

/-- From subgraph.rs (Subgraph::get_internal_summary, lines building the
returned summaries table): allocate an inputs-by-outputs table of empty
antichains, then for each input scan input_summaries[input]; every entry whose
target is GraphOutput(output) inserts the outer projection of each of its
summaries into summaries[input][output]. -/
def internalSummaryTable (leo : SO → SO → Bool) (dflt_so : SO) (inputs outputs : Nat)
    (input_summaries : List (List (Target × Antichain (Summary SO SI)))) :
    List (List (Antichain SO)) :=
  (List.range inputs).foldl
    (fun summaries input =>
      (input_summaries.getD input []).foldl
        (fun summaries entry =>
          match entry.1 with
          | .GraphOutput output =>
              entry.2.elements.foldl
                (fun summaries s =>
                  upd2 summaries input output (fun a => (a.insert leo (projOuter dflt_so s)).1))
                summaries
          | .ScopeInput _ _ => summaries)
        summaries)
    (List.replicate inputs (List.replicate outputs Antichain.empty))

/-- Stated from the spec sentence for C8: the summaries contributed to column
output by a row of input_summaries, in scan order. -/
def specContrib (output : Nat) (entries : List (Target × Antichain (Summary SO SI))) :
    List (Summary SO SI) :=
  entries.flatMap (fun e =>
    match e.1 with
    | .GraphOutput o => if o = output then e.2.elements else []
    | .ScopeInput _ _ => [])

/-- Stated from the spec sentence for C8: the antichain obtained by inserting
the outer projections of the contributions in scan order. -/
def specCell (leo : SO → SO → Bool) (dflt_so : SO) (output : Nat)
    (entries : List (Target × Antichain (Summary SO SI))) : Antichain SO :=
  (specContrib output entries).foldl
    (fun a s => (a.insert leo (projOuter dflt_so s)).1) Antichain.empty

/-- Row-local form of one input_summaries entry's effect on a row of the
returned summary table; used to relate internalSummaryTable to its per-cell
description (the table's rows are updated independently). -/
def rowEntryF (leo : SO → SO → Bool) (dflt_so : SO)
    (entry : Target × Antichain (Summary SO SI)) (row : List (Antichain SO)) :
    List (Antichain SO) :=
  match entry.1 with
  | .GraphOutput o =>
      listUpd row o (fun a =>
        entry.2.elements.foldl (fun a s => (a.insert leo (projOuter dflt_so s)).1) a)
  | .ScopeInput _ _ => row

/-- Row-local form of a whole input_summaries row's effect on a row of the
returned summary table. -/
def rowFun (leo : SO → SO → Bool) (dflt_so : SO)
    (entries : List (Target × Antichain (Summary SO SI))) (row : List (Antichain SO)) :
    List (Antichain SO) :=
  entries.foldl (fun row e => rowEntryF leo dflt_so e row) row

/-- From broadcast.rs (type ProgressVec): a flat log of
(scope, port, time, delta) updates. -/
abbrev ProgressVec (T : Type) := List (Nat × Nat × T × Int)

/-- The three buffers a child scope fills during pull_internal_progress,
together with its activity flag; this is the oracle representing one call
into the opaque boxed scope. -/
structure ChildPullRes (T : Type) where
  internal_progress : List (CountMap T)
  consumed_messages : List (CountMap T)
  produced_messages : List (CountMap T)
  active : Bool

/-- Result record of ScopeWrapper::pull_pointstamps: the updated wrapper, the
two logs, the accumulated output_action calls, and the activity flag. -/
structure PullPsRes (TO TI SO SI : Type) where
  w : ScopeWrapperSt TO TI SO SI
  msgs : ProgressVec (TO × TI)
  internal : ProgressVec (TO × TI)
  outs : List (Nat × (TO × TI) × Int)
  active : Bool

/-- From subgraph.rs (ScopeWrapper::pull_pointstamps, inner edge loop): route
one drained (time, delta) of produced_messages[output] once per edge target,
pushing ScopeInput targets onto the message log and recording output_action
calls for GraphOutput targets. -/
def routeProducedEntry (targets : List Target) (time : T) (delta : Int)
    (msgs : List (Nat × Nat × T × Int)) (outs : List (Nat × T × Int)) :
    List (Nat × Nat × T × Int) × List (Nat × T × Int) :=
  targets.foldl
    (fun acc target =>
      match target with
      | .ScopeInput tgt tgt_in => (acc.1 ++ [(tgt, tgt_in, time, delta)], acc.2)
      | .GraphOutput go => (acc.1, acc.2 ++ [(go, time, delta)]))
    (msgs, outs)

/-- From subgraph.rs (ScopeWrapper::pull_pointstamps, produced-messages drain
for one output). -/
def routeProduced (targets : List Target) (entries : List (T × Int))
    (msgs : List (Nat × Nat × T × Int)) (outs : List (Nat × T × Int)) :
    List (Nat × Nat × T × Int) × List (Nat × T × Int) :=
  entries.foldl (fun acc td => routeProducedEntry targets td.1 td.2 acc.1 acc.2) (msgs, outs)

/-- From subgraph.rs (ScopeWrapper::pull_pointstamps, per-output body): drain
produced_messages[output] through the edges of the output, drain
internal_progress[output] into the internal log, and clear both buffers. The
immutable self.edges and self.index are read from w, and the buffer contents
left by the child call from res (earlier iterations only touch other
indices). -/
def pullStep1 (w : ScopeWrapperSt TO TI SO SI) (res : ChildPullRes (TO × TI))
    (acc : PullPsRes TO TI SO SI) (output : Nat) : PullPsRes TO TI SO SI :=
  { acc with
      w := { acc.w with
              produced_messages := listUpd acc.w.produced_messages output (fun _ => ⟨[]⟩),
              internal_progress := listUpd acc.w.internal_progress output (fun _ => ⟨[]⟩) },
      msgs := (routeProduced (w.edges.getD output [])
        ((res.produced_messages.getD output ⟨[]⟩).elems) acc.msgs acc.outs).1,
      internal := acc.internal ++
        ((res.internal_progress.getD output ⟨[]⟩).elems.map
          (fun td => (w.index, output, td.1, td.2))),
      outs := (routeProduced (w.edges.getD output [])
        ((res.produced_messages.getD output ⟨[]⟩).elems) acc.msgs acc.outs).2 }

/-- From subgraph.rs (ScopeWrapper::pull_pointstamps, per-input body): drain
consumed_messages[input] into the message log with negated deltas and clear
the buffer. -/
def pullStep2 (w : ScopeWrapperSt TO TI SO SI) (res : ChildPullRes (TO × TI))
    (acc : PullPsRes TO TI SO SI) (input : Nat) : PullPsRes TO TI SO SI :=
  { acc with
      w := { acc.w with
              consumed_messages := listUpd acc.w.consumed_messages input (fun _ => ⟨[]⟩) },
      msgs := acc.msgs ++
        ((res.consumed_messages.getD input ⟨[]⟩).elems.map
          (fun td => (w.index, input, td.1, -td.2))) }

/-- From subgraph.rs (ScopeWrapper::pull_pointstamps): the call into the
opaque boxed child scope is represented by res, the three buffer contents it
leaves behind together with its activity flag. The output loop routes
produced messages along the output's edges and logs internal progress, the
input loop logs consumed messages negated; the returned flag is the
child's. -/
def ScopeWrapperSt.pull_pointstamps (w : ScopeWrapperSt TO TI SO SI)
    (res : ChildPullRes (TO × TI))
    (msgs0 internal0 : ProgressVec (TO × TI))
    (outs0 : List (Nat × (TO × TI) × Int)) : PullPsRes TO TI SO SI :=
  (List.range w.inputs).foldl (pullStep2 w res)
    ((List.range w.outputs).foldl (pullStep1 w res)
      (⟨{ w with internal_progress := res.internal_progress,
                 consumed_messages := res.consumed_messages,
                 produced_messages := res.produced_messages },
         msgs0, internal0, outs0, res.active⟩ : PullPsRes TO TI SO SI))

/-- Stated from the spec sentence for C7: the ScopeInput routings of the
drained produced messages, once per edge target, in drain order. -/
def producedRouting (w : ScopeWrapperSt TO TI SO SI) (res : ChildPullRes (TO × TI)) :
    ProgressVec (TO × TI) :=
  (List.range w.outputs).flatMap (fun output =>
    ((res.produced_messages.getD output ⟨[]⟩).elems).flatMap (fun td =>
      (w.edges.getD output []).filterMap (fun t =>
        match t with
        | .ScopeInput tgt tgt_in => some (tgt, tgt_in, td.1, td.2)
        | .GraphOutput _ => none)))

/-- Stated from the spec sentence for C7: the output_action calls produced for
GraphOutput edge targets, in drain order. -/
def producedOutActs (w : ScopeWrapperSt TO TI SO SI) (res : ChildPullRes (TO × TI)) :
    List (Nat × (TO × TI) × Int) :=
  (List.range w.outputs).flatMap (fun output =>
    ((res.produced_messages.getD output ⟨[]⟩).elems).flatMap (fun td =>
      (w.edges.getD output []).filterMap (fun t =>
        match t with
        | .GraphOutput go => some (go, td.1, td.2)
        | .ScopeInput _ _ => none)))

/-- Stated from the spec sentence for C7: the internal-progress log entries
(self.index, output, time, delta), in drain order. -/
def internalRouting (w : ScopeWrapperSt TO TI SO SI) (res : ChildPullRes (TO × TI)) :
    ProgressVec (TO × TI) :=
  (List.range w.outputs).flatMap (fun output =>
    ((res.internal_progress.getD output ⟨[]⟩).elems).map
      (fun td => (w.index, output, td.1, td.2)))

/-- Stated from the spec sentence for C7: the consumed-messages log entries
(self.index, input, time, -delta), in drain order. -/
def consumedRouting (w : ScopeWrapperSt TO TI SO SI) (res : ChildPullRes (TO × TI)) :
    ProgressVec (TO × TI) :=
  (List.range w.inputs).flatMap (fun input =>
    ((res.consumed_messages.getD input ⟨[]⟩).elems).map
      (fun td => (w.index, input, td.1, -td.2)))

/-- An all-empty MutableAntichain, the default of out-of-bounds reads (which
the Rust code would panic on). -/
def dummyMA : MutableAntichain T := ⟨⟨[]⟩, []⟩

/-- From subgraph.rs (ScopeWrapper::push_pointstamps): if the child wants
notification, fold each input's external progress into its guarantee,
collecting frontier changes; when any change resulted, the opaque child scope
is called with the changes (its internal reaction is not part of the modelled
state) and the change buffers are cleared. -/
def ScopeWrapperSt.push_pointstamps [DecidableEq TO] [DecidableEq TI]
    (leT : (TO × TI) → (TO × TI) → Bool)
    (w : ScopeWrapperSt TO TI SO SI) (external_progress : List (CountMap (TO × TI))) :
    ScopeWrapperSt TO TI SO SI :=
  if w.notify then
    let w1 := (List.range w.inputs).foldl
      (fun (w : ScopeWrapperSt TO TI SO SI) input =>
        let pr := (w.guarantees.getD input dummyMA).update_into_cm leT
          (external_progress.getD input ⟨[]⟩) (w.guarantee_changes.getD input ⟨[]⟩)
        { w with guarantees := listUpd w.guarantees input (fun _ => pr.1),
                 guarantee_changes := listUpd w.guarantee_changes input (fun _ => pr.2) })
      w
    if w1.guarantee_changes.any (fun cm => cm.elems.length > 0) then
      { w1 with guarantee_changes := w1.guarantee_changes.map CountMap.clear }
    else w1
  else w

/-- From subgraph.rs (push_pointstamps_to_targets, per-(time, value) body):
propagate one drained update through a summary list, adding
results_in(summary, time) to target_pushed or output_pushed for each entry
and antichain element. -/
def pushEntryToDests [DecidableEq TO] [DecidableEq TI]
    (po : PathOps TO SO) (pin : PathOps TI SI)
    (summaries : List (Target × Antichain (Summary SO SI)))
    (time : TO × TI) (value : Int) (ps : PointstampCounter (TO × TI)) :
    PointstampCounter (TO × TI) :=
  summaries.foldl
    (fun ps entry =>
      match entry.1 with
      | .ScopeInput scope input =>
          { ps with target_pushed := (upd2 ps.target_pushed scope input
                        (fun cm => entry.2.elements.foldl
                          (fun cm s => cm.update (Summary.results_in po pin s time) value) cm)) }
      | .GraphOutput output =>
          { ps with output_pushed := (listUpd ps.output_pushed output
                        (fun cm => entry.2.elements.foldl
                          (fun cm s => cm.update (Summary.results_in po pin s time) value) cm)) })
    ps

/-- From subgraph.rs (push_pointstamps_to_targets, target_counts body for one
child input): drain target_counts[index][input] through
target_summaries[index][input]. -/
def pptTargetStep [DecidableEq TO] [DecidableEq TI]
    (po : PathOps TO SO) (pin : PathOps TI SI) (index : Nat)
    (s : SubgraphSt TO TI SO SI) (input : Nat) : SubgraphSt TO TI SO SI :=
  let entries := (get2 s.pointstamps.target_counts index input ⟨[]⟩).elems
  let ps0 := { s.pointstamps with
    target_counts := upd2 s.pointstamps.target_counts index input (fun _ => ⟨[]⟩) }
  let ps1 := entries.foldl
    (fun ps td => pushEntryToDests po pin (get2 s.target_summaries index input []) td.1 td.2 ps)
    ps0
  { s with pointstamps := ps1 }

/-- From subgraph.rs (push_pointstamps_to_targets, source_counts body for one
child output): drain source_counts[index][output] through
source_summaries[index][output]. -/
def pptSourceStep [DecidableEq TO] [DecidableEq TI]
    (po : PathOps TO SO) (pin : PathOps TI SI) (index : Nat)
    (s : SubgraphSt TO TI SO SI) (output : Nat) : SubgraphSt TO TI SO SI :=
  let entries := (get2 s.pointstamps.source_counts index output ⟨[]⟩).elems
  let ps0 := { s.pointstamps with
    source_counts := upd2 s.pointstamps.source_counts index output (fun _ => ⟨[]⟩) }
  let ps1 := entries.foldl
    (fun ps td => pushEntryToDests po pin (get2 s.source_summaries index output []) td.1 td.2 ps)
    ps0
  { s with pointstamps := ps1 }

/-- From subgraph.rs (push_pointstamps_to_targets, per-child body): the target
loop followed by the source loop. -/
def pptChildStep [DecidableEq TO] [DecidableEq TI]
    (po : PathOps TO SO) (pin : PathOps TI SI)
    (s : SubgraphSt TO TI SO SI) (index : Nat) : SubgraphSt TO TI SO SI :=
  (List.range ((s.pointstamps.source_counts.getD index []).length)).foldl
    (pptSourceStep po pin index)
    ((List.range ((s.pointstamps.target_counts.getD index []).length)).foldl
      (pptTargetStep po pin index) s)

/-- From subgraph.rs (push_pointstamps_to_targets, graph-input body): drain
input_counts[input] through input_summaries[input]. -/
def pptInputStep [DecidableEq TO] [DecidableEq TI]
    (po : PathOps TO SO) (pin : PathOps TI SI)
    (s : SubgraphSt TO TI SO SI) (input : Nat) : SubgraphSt TO TI SO SI :=
  let entries := (s.pointstamps.input_counts.getD input ⟨[]⟩).elems
  let ps0 := { s.pointstamps with
    input_counts := listUpd s.pointstamps.input_counts input (fun _ => ⟨[]⟩) }
  let ps1 := entries.foldl
    (fun ps td => pushEntryToDests po pin (s.input_summaries.getD input []) td.1 td.2 ps)
    ps0
  { s with pointstamps := ps1 }

/-- From subgraph.rs (Subgraph::push_pointstamps_to_targets): drain
target_counts through target_summaries, source_counts through
source_summaries and input_counts through input_summaries, accumulating into
target_pushed and output_pushed. -/
def Subgraph.push_pointstamps_to_targets [DecidableEq TO] [DecidableEq TI]
    (po : PathOps TO SO) (pin : PathOps TI SI) (s : SubgraphSt TO TI SO SI) :
    SubgraphSt TO TI SO SI :=
  (List.range s.inputs).foldl (pptInputStep po pin)
    ((List.range s.children.length).foldl (pptChildStep po pin) s)

/-- Accumulator of pull_internal_progress: the subgraph state plus the three
out-buffers handed in by the parent and the activity flag. -/
structure PipAcc (TO TI SO SI : Type) where
  s : SubgraphSt TO TI SO SI
  internal : List (CountMap TO)
  consumed : List (CountMap TO)
  produced : List (CountMap TO)
  active : Bool

/-- Result record of Subgraph::pull_internal_progress. -/
structure PullRes (TO TI SO SI : Type) where
  state : SubgraphSt TO TI SO SI
  internal_progress : List (CountMap TO)
  messages_consumed : List (CountMap TO)
  messages_produced : List (CountMap TO)
  active : Bool

/-- From subgraph.rs (pull_internal_progress Step 1): drain each graph
input's shared message counter, counting it as consumed and routing it along
input_edges, onto the message log for ScopeInput targets or into
messages_produced for GraphOutput targets. -/
def pipInputs [DecidableEq TO] [DecidableEq TI] (acc0 : PipAcc TO TI SO SI) :
    PipAcc TO TI SO SI :=
  (List.range acc0.s.inputs).foldl
    (fun (acc : PipAcc TO TI SO SI) input =>
      let entries := (acc.s.input_messages.getD input ⟨[]⟩).elems
      let acc1 : PipAcc TO TI SO SI :=
        { acc with s := { acc.s with
            input_messages := listUpd acc.s.input_messages input (fun _ => ⟨[]⟩) } }
      entries.foldl
        (fun (acc : PipAcc TO TI SO SI) td =>
          let acc2 : PipAcc TO TI SO SI :=
            { acc with consumed := listUpd acc.consumed input (fun cm => cm.update td.1.1 td.2) }
          (acc2.s.input_edges.getD input []).foldl
            (fun (acc : PipAcc TO TI SO SI) target =>
              match target with
              | .ScopeInput tgt tgt_in =>
                  { acc with s := { acc.s with pointstamp_messages :=
                      acc.s.pointstamp_messages ++ [(tgt, tgt_in, td.1, td.2)] } }
              | .GraphOutput go =>
                  { acc with produced := listUpd acc.produced go (fun cm => cm.update td.1.1 td.2) })
            acc2)
        acc1)
    acc0

/-- From subgraph.rs (pull_internal_progress Step 2): pull each child through
its wrapper, routing GraphOutput action calls into messages_produced and
or-ing the activity flags. -/
def pipChildren [DecidableEq TO] (childPulls : Nat → ChildPullRes (TO × TI))
    (acc0 : PipAcc TO TI SO SI) : PipAcc TO TI SO SI :=
  (List.range acc0.s.children.length).foldl
    (fun (acc : PipAcc TO TI SO SI) index =>
      let r := (acc.s.children.getD index dummyWrapper).pull_pointstamps (childPulls index)
        acc.s.pointstamp_messages acc.s.pointstamp_internal []
      let produced1 := r.outs.foldl
        (fun p od => listUpd p od.1 (fun cm => cm.update od.2.1.1 od.2.2)) acc.produced
      let s1 : SubgraphSt TO TI SO SI :=
        { acc.s with children := listUpd acc.s.children index (fun _ => r.w),
                     pointstamp_messages := r.msgs,
                     pointstamp_internal := r.internal }
      { acc with s := s1, produced := produced1, active := acc.active || r.active })
    acc0

/-- From subgraph.rs (pull_internal_progress, intermission): exchange the two
logs through the opaque progcaster, then compact each through its CountMap
(summing by (scope, port, time) and dropping zeros) and re-expand. -/
def pipBroadcast [DecidableEq TO] [DecidableEq TI]
    (progcast : ProgressVec (TO × TI) → ProgressVec (TO × TI) →
      ProgressVec (TO × TI) × ProgressVec (TO × TI))
    (s : SubgraphSt TO TI SO SI) : SubgraphSt TO TI SO SI :=
  let pr := progcast s.pointstamp_messages s.pointstamp_internal
  let mcm := pr.1.foldl (fun cm e => cm.update (e.1, e.2.1, e.2.2.1) e.2.2.2)
    s.pointstamp_messages_cm
  let icm := pr.2.foldl (fun cm e => cm.update (e.1, e.2.1, e.2.2.1) e.2.2.2)
    s.pointstamp_internal_cm
  { s with
      pointstamp_messages := mcm.elems.map (fun e => (e.1.1, e.1.2.1, e.1.2.2, e.2)),
      pointstamp_internal := icm.elems.map (fun e => (e.1.1, e.1.2.1, e.1.2.2, e.2)),
      pointstamp_messages_cm := ⟨[]⟩,
      pointstamp_internal_cm := ⟨[]⟩ }

/-- From subgraph.rs (pull_internal_progress, absorb, message log body): one
compacted (scope, input, time, delta) into outstanding_messages, frontier
changes becoming pointstamps via update_target. -/
def absorbMsgStep [DecidableEq TO] [DecidableEq TI] (leT : (TO × TI) → (TO × TI) → Bool)
    (s : SubgraphSt TO TI SO SI) (e : Nat × Nat × (TO × TI) × Int) :
    SubgraphSt TO TI SO SI :=
  let pr := ((s.children.getD e.1 dummyWrapper).outstanding_messages.getD e.2.1
    dummyMA).update_and leT e.2.2.1 e.2.2.2
  let sa : SubgraphSt TO TI SO SI :=
    { s with children := (listUpd s.children e.1
                (fun w => { w with outstanding_messages :=
                              (listUpd w.outstanding_messages e.2.1 (fun _ => pr.1)) })) }
  { sa with pointstamps := (pr.2.foldl
                (fun ps ch => ps.update_target (.ScopeInput e.1 e.2.1) ch.1 ch.2)
                sa.pointstamps) }

/-- From subgraph.rs (pull_internal_progress, absorb, internal log body): one
compacted (scope, output, time, delta) into capabilities, frontier changes
becoming pointstamps via update_source. -/
def absorbIntStep [DecidableEq TO] [DecidableEq TI] (leT : (TO × TI) → (TO × TI) → Bool)
    (s : SubgraphSt TO TI SO SI) (e : Nat × Nat × (TO × TI) × Int) :
    SubgraphSt TO TI SO SI :=
  let pr := ((s.children.getD e.1 dummyWrapper).capabilities.getD e.2.1
    dummyMA).update_and leT e.2.2.1 e.2.2.2
  let sa : SubgraphSt TO TI SO SI :=
    { s with children := (listUpd s.children e.1
                (fun w => { w with capabilities :=
                              (listUpd w.capabilities e.2.1 (fun _ => pr.1)) })) }
  { sa with pointstamps := (pr.2.foldl
                (fun ps ch => ps.update_source (.ScopeOutput e.1 e.2.1) ch.1 ch.2)
                sa.pointstamps) }

/-- From subgraph.rs (pull_internal_progress, absorb): drain both logs into
the per-child outstanding_messages and capabilities antichains; each frontier
change becomes a pointstamp. -/
def pipAbsorb [DecidableEq TO] [DecidableEq TI] (leT : (TO × TI) → (TO × TI) → Bool)
    (s : SubgraphSt TO TI SO SI) : SubgraphSt TO TI SO SI :=
  s.pointstamp_internal.foldl (absorbIntStep leT)
    (s.pointstamp_messages.foldl (absorbMsgStep leT)
      ({ s with pointstamp_messages := [], pointstamp_internal := [] }))

/-- From subgraph.rs (pull_internal_progress Step 3, per-child body): push the
pushed pointstamps for this child's inputs into it through the wrapper. -/
def pipPushChildStep [DecidableEq TO] [DecidableEq TI] (leT : (TO × TI) → (TO × TI) → Bool)
    (s : SubgraphSt TO TI SO SI) (index : Nat) : SubgraphSt TO TI SO SI :=
  { s with children := (listUpd s.children index
              (fun w => w.push_pointstamps leT (s.pointstamps.target_pushed.getD index []))) }

/-- From subgraph.rs (pull_internal_progress Step 3): push the pushed
pointstamps of each child's inputs into that child through its wrapper. -/
def pipPushChildren [DecidableEq TO] [DecidableEq TI] (leT : (TO × TI) → (TO × TI) → Bool)
    (s0 : SubgraphSt TO TI SO SI) : SubgraphSt TO TI SO SI :=
  (List.range s0.children.length).foldl (pipPushChildStep leT) s0

/-- From subgraph.rs (pull_internal_progress Step 4, per-(time, val) body):
absorb one drained output_pushed entry into external_capability; each
frontier change updates the internal_progress out-buffer. -/
def pipOutEntryStep [DecidableEq TO] (leO : TO → TO → Bool) (output : Nat)
    (acc : SubgraphSt TO TI SO SI × List (CountMap TO)) (tv : (TO × TI) × Int) :
    SubgraphSt TO TI SO SI × List (CountMap TO) :=
  let pr := (acc.1.external_capability.getD output dummyMA).update_and leO tv.1.1 tv.2
  ({ acc.1 with external_capability :=
                  (listUpd acc.1.external_capability output (fun _ => pr.1)) },
   pr.2.foldl (fun ib ch => listUpd ib output (fun cm => cm.update ch.1 ch.2)) acc.2)

/-- From subgraph.rs (pull_internal_progress Step 4, per-output body): drain
output_pushed[output] and absorb each entry. -/
def pipOutStep [DecidableEq TO] (leO : TO → TO → Bool)
    (acc : SubgraphSt TO TI SO SI × List (CountMap TO)) (output : Nat) :
    SubgraphSt TO TI SO SI × List (CountMap TO) :=
  let entries := (acc.1.pointstamps.output_pushed.getD output ⟨[]⟩).elems
  let sa : SubgraphSt TO TI SO SI :=
    { acc.1 with pointstamps := { acc.1.pointstamps with
                                    output_pushed := (listUpd acc.1.pointstamps.output_pushed
                                        output (fun _ => ⟨[]⟩)) } }
  entries.foldl (pipOutEntryStep leO output) (sa, acc.2)

/-- From subgraph.rs (pull_internal_progress Step 4): drain output_pushed of
each graph output into external_capability; each frontier change is reported
upward through the internal_progress out-buffer. -/
def pipOutputs [DecidableEq TO] (leO : TO → TO → Bool)
    (s0 : SubgraphSt TO TI SO SI) (internal : List (CountMap TO)) :
    SubgraphSt TO TI SO SI × List (CountMap TO) :=
  (List.range s0.outputs).foldl (pipOutStep leO) (s0, internal)

/-- From subgraph.rs (Subgraph::pull_internal_progress): the whole pull, with
the opaque child scopes represented by the childPulls oracle and the opaque
progcaster by the progcast oracle. Steps: drain graph inputs, pull children,
broadcast and compact the logs, absorb them into the per-child antichains,
propagate through summaries, push to children, drain graph outputs upward,
clear the pushed buffers, and recompute the activity flag. -/
def Subgraph.pull_internal_progress [DecidableEq TO] [DecidableEq TI]
    (po : PathOps TO SO) (pin : PathOps TI SI)
    (leT : (TO × TI) → (TO × TI) → Bool) (leO : TO → TO → Bool)
    (childPulls : Nat → ChildPullRes (TO × TI))
    (progcast : ProgressVec (TO × TI) → ProgressVec (TO × TI) →
      ProgressVec (TO × TI) × ProgressVec (TO × TI))
    (s0 : SubgraphSt TO TI SO SI)
    (internal0 consumed0 produced0 : List (CountMap TO)) : PullRes TO TI SO SI :=
  let a2 := pipChildren childPulls
    (pipInputs (⟨s0, internal0, consumed0, produced0, false⟩ : PipAcc TO TI SO SI))
  let pr7 := pipOutputs leO
    (pipPushChildren leT
      (Subgraph.push_pointstamps_to_targets po pin
        (pipAbsorb leT (pipBroadcast progcast a2.s))))
    a2.internal
  let s8 : SubgraphSt TO TI SO SI :=
    { pr7.1 with pointstamps := pr7.1.pointstamps.clear_pushed }
  ⟨s8, pr7.2, a2.consumed, a2.produced,
    a2.active ||
      s8.children.any (fun w =>
        w.outstanding_messages.any (fun ma => ma.elements.length > 0) ||
        w.capabilities.any (fun ma => ma.elements.length > 0))⟩

/-- From subgraph.rs (Subgraph::target_to_sources): a GraphOutput target
expands through the external summaries to graph inputs (wrapped as Outer with
the default inner summary); a ScopeInput target expands through the child's
internal summaries to its outputs. -/
def Subgraph.target_to_sources (pin : PathOps TI SI) (s : SubgraphSt TO TI SO SI)
    (target : Target) : List (Source × Summary SO SI) :=
  match target with
  | .GraphOutput port =>
      (List.range s.inputs).flatMap (fun input =>
        ((get2 s.external_summaries port input Antichain.empty).elements).map
          (fun summary => (Source.GraphInput input, Summary.Outer summary pin.dflt_sum)))
  | .ScopeInput graph port =>
      (List.range ((s.children.getD graph dummyWrapper).outputs)).flatMap (fun i =>
        ((get2 (s.children.getD graph dummyWrapper).summary port i Antichain.empty).elements).map
          (fun summary => (Source.ScopeOutput graph i, summary)))

/-- The loop state of set_summaries: the two summary tables the fixpoint
iteration mutates. -/
structure SummSt (SO SI : Type) where
  source_summaries : List (List (List (Target × Antichain (Summary SO SI))))
  input_summaries : List (List (Target × Antichain (Summary SO SI)))
deriving DecidableEq

/-- From subgraph.rs (set_summaries, initialization): seed each child output's
source summaries with its edge targets (a ScopeInput target is kept only when
its child wants notification) carrying the default summary as a singleton
antichain; likewise each graph input's summaries from input_edges. -/
def summInit (s : SubgraphSt TO TI SO SI) : SummSt SO SI :=
  { source_summaries := s.children.map (fun w =>
      (List.range w.outputs).map (fun output =>
        (w.edges.getD output []).foldl
          (fun v target =>
            if (match target with
                | Target.ScopeInput t _ => (s.children.getD t dummyWrapper).notify
                | Target.GraphOutput _ => true)
            then v ++ [(target, Antichain.from_elem s.default_summary)]
            else v)
          [])),
    input_summaries := (List.range s.inputs).map (fun input =>
      (s.input_edges.getD input []).foldl
        (fun v target =>
          if (match target with
              | Target.ScopeInput t _ => (s.children.getD t dummyWrapper).notify
              | Target.GraphOutput _ => true)
          then v ++ [(target, Antichain.from_elem s.default_summary)]
          else v)
        []) }

/-- Read one summary vector of the loop state: a (scope, output) position of
source_summaries or an input position of input_summaries. -/
def getVec (st : SummSt SO SI) (loc : (Nat × Nat) ⊕ Nat) :
    List (Target × Antichain (Summary SO SI)) :=
  match loc with
  | Sum.inl p => get2 st.source_summaries p.1 p.2 []
  | Sum.inr input => st.input_summaries.getD input []

/-- Write one summary vector of the loop state. -/
def setVec (st : SummSt SO SI) (loc : (Nat × Nat) ⊕ Nat)
    (v : List (Target × Antichain (Summary SO SI))) : SummSt SO SI :=
  match loc with
  | Sum.inl p => { st with source_summaries := upd2 st.source_summaries p.1 p.2 (fun _ => v) }
  | Sum.inr input => { st with input_summaries := listUpd st.input_summaries input (fun _ => v) }

/-- From subgraph.rs (set_summaries loop body): one try_to_add_summary call at
a vector position, clearing the done flag when something was added. -/
def applyCandidate (le : Summary SO SI → Summary SO SI → Bool) (st : SummSt SO SI)
    (loc : (Nat × Nat) ⊕ Nat) (next_target : Target) (cand : Summary SO SI) (d : Bool) :
    SummSt SO SI × Bool :=
  let pr := try_to_add_summary le (getVec st loc) next_target cand
  (setVec st loc pr.1, d && !pr.2)

/-- From subgraph.rs (set_summaries loop, innermost body): one candidate
summary, composed with followed_by, offered to the vector at loc. -/
def candStep (po : PathOps TO SO) (pin : PathOps TI SI)
    (le : Summary SO SI → Summary SO SI → Bool) (loc : (Nat × Nat) ⊕ Nat)
    (nt : Target) (nsum : Summary SO SI)
    (acc : SummSt SO SI × Bool) (x : Summary SO SI) : SummSt SO SI × Bool :=
  applyCandidate le acc.1 loc nt (Summary.followed_by po pin nsum x) acc.2

/-- From subgraph.rs (set_summaries loop): all candidates of one reachable
(target, antichain) entry. -/
def entryStep (po : PathOps TO SO) (pin : PathOps TI SI)
    (le : Summary SO SI → Summary SO SI → Bool) (loc : (Nat × Nat) ⊕ Nat)
    (nsum : Summary SO SI) (acc : SummSt SO SI × Bool)
    (entry : Target × Antichain (Summary SO SI)) : SummSt SO SI × Bool :=
  entry.2.elements.foldl (candStep po pin le loc entry.1 nsum) acc

/-- From subgraph.rs (set_summaries loop): one element of target_to_sources;
a reached ScopeOutput expands through its currently reachable summaries
(cloned at this point, as in the Rust code). -/
def nsStep (po : PathOps TO SO) (pin : PathOps TI SI)
    (le : Summary SO SI → Summary SO SI → Bool) (loc : (Nat × Nat) ⊕ Nat)
    (acc : SummSt SO SI × Bool) (ns : Source × Summary SO SI) : SummSt SO SI × Bool :=
  match ns.1 with
  | Source.ScopeOutput next_scope next_output =>
      (get2 acc.1.source_summaries next_scope next_output []).foldl
        (entryStep po pin le loc ns.2) acc
  | Source.GraphInput _ => acc

/-- From subgraph.rs (set_summaries loop): one edge target, expanded through
target_to_sources. -/
def targetStep (po : PathOps TO SO) (pin : PathOps TI SI)
    (le : Summary SO SI → Summary SO SI → Bool) (s : SubgraphSt TO TI SO SI)
    (loc : (Nat × Nat) ⊕ Nat) (acc : SummSt SO SI × Bool) (target : Target) :
    SummSt SO SI × Bool :=
  (Subgraph.target_to_sources pin s target).foldl (nsStep po pin le loc) acc

/-- From subgraph.rs (set_summaries loop): all edges of one child output. -/
def outputStep (po : PathOps TO SO) (pin : PathOps TI SI)
    (le : Summary SO SI → Summary SO SI → Bool) (s : SubgraphSt TO TI SO SI)
    (scope : Nat) (acc : SummSt SO SI × Bool) (output : Nat) : SummSt SO SI × Bool :=
  ((s.children.getD scope dummyWrapper).edges.getD output []).foldl
    (targetStep po pin le s (Sum.inl (scope, output))) acc

/-- From subgraph.rs (set_summaries loop): all outputs of one child. -/
def scopeStep (po : PathOps TO SO) (pin : PathOps TI SI)
    (le : Summary SO SI → Summary SO SI → Bool) (s : SubgraphSt TO TI SO SI)
    (acc : SummSt SO SI × Bool) (scope : Nat) : SummSt SO SI × Bool :=
  (List.range ((s.children.getD scope dummyWrapper).outputs)).foldl
    (outputStep po pin le s scope) acc

/-- From subgraph.rs (set_summaries loop): all edges of one graph input. -/
def inputStep (po : PathOps TO SO) (pin : PathOps TI SI)
    (le : Summary SO SI → Summary SO SI → Bool) (s : SubgraphSt TO TI SO SI)
    (acc : SummSt SO SI × Bool) (input : Nat) : SummSt SO SI × Bool :=
  (s.input_edges.getD input []).foldl (targetStep po pin le s (Sum.inr input)) acc

/-- From subgraph.rs (set_summaries, first half of the fixpoint pass): expand
each child output's edges one hop, composing reachable summaries with
followed_by into the output's own vector. -/
def passSources (po : PathOps TO SO) (pin : PathOps TI SI)
    (le : Summary SO SI → Summary SO SI → Bool) (s : SubgraphSt TO TI SO SI)
    (acc0 : SummSt SO SI × Bool) : SummSt SO SI × Bool :=
  (List.range s.children.length).foldl (scopeStep po pin le s) acc0

/-- From subgraph.rs (set_summaries, second half of the fixpoint pass): the
same expansion for edges from graph inputs into input_summaries. -/
def passInputs (po : PathOps TO SO) (pin : PathOps TI SI)
    (le : Summary SO SI → Summary SO SI → Bool) (s : SubgraphSt TO TI SO SI)
    (acc0 : SummSt SO SI × Bool) : SummSt SO SI × Bool :=
  (List.range s.inputs).foldl (inputStep po pin le s) acc0

/-- From subgraph.rs (set_summaries, one iteration of the while loop): done
starts true, the sources pass runs, then the inputs pass. -/
def passStep (po : PathOps TO SO) (pin : PathOps TI SI)
    (le : Summary SO SI → Summary SO SI → Bool) (s : SubgraphSt TO TI SO SI)
    (st : SummSt SO SI) : SummSt SO SI × Bool :=
  passInputs po pin le s (passSources po pin le s (st, true))

/-- From subgraph.rs (set_summaries, the while !done loop): iterate passes
until a pass adds nothing; fuel bounds this embedding of the unbounded Rust
loop, and none marks fuel exhaustion (the Rust code still looping). -/
def summLoop (po : PathOps TO SO) (pin : PathOps TI SI)
    (le : Summary SO SI → Summary SO SI → Bool) (s : SubgraphSt TO TI SO SI) :
    Nat → SummSt SO SI → Option (SummSt SO SI)
  | 0, _ => none
  | fuel + 1, st =>
      if (passStep po pin le s st).2 then some (passStep po pin le s st).1
      else summLoop po pin le s fuel (passStep po pin le s st).1

/-- From subgraph.rs (set_summaries, final loop): rebuild target_summaries
from the converged source_summaries, seeding each (scope, input) with its
direct self-link under the default summary. -/
def buildTargetSummaries (po : PathOps TO SO) (pin : PathOps TI SI)
    (le : Summary SO SI → Summary SO SI → Bool) (s : SubgraphSt TO TI SO SI)
    (st : SummSt SO SI) : List (List (List (Target × Antichain (Summary SO SI)))) :=
  (List.range s.children.length).map (fun scope =>
    (List.range ((s.children.getD scope dummyWrapper).inputs)).map (fun input =>
      (Subgraph.target_to_sources pin s (Target.ScopeInput scope input)).foldl
        (fun v ns =>
          match ns.1 with
          | Source.ScopeOutput nscope noutput =>
              (get2 st.source_summaries nscope noutput []).foldl
                (fun v entry =>
                  entry.2.elements.foldl
                    (fun v summary =>
                      (try_to_add_summary le v entry.1
                        (Summary.followed_by po pin ns.2 summary)).1)
                    v)
                v
          | Source.GraphInput _ => v)
        (try_to_add_summary le [] (Target.ScopeInput scope input) (Summary.dflt pin)).1))

/-- From subgraph.rs (Subgraph::set_summaries): initialize the seed tables,
run the fixpoint loop, then rebuild target_summaries; none when the fuel ran
out before the loop converged. -/
def Subgraph.set_summaries (po : PathOps TO SO) (pin : PathOps TI SI)
    (le : Summary SO SI → Summary SO SI → Bool) (fuel : Nat)
    (s : SubgraphSt TO TI SO SI) : Option (SubgraphSt TO TI SO SI) :=
  match summLoop po pin le s fuel (summInit s) with
  | none => none
  | some st =>
      some { s with source_summaries := st.source_summaries,
                    input_summaries := st.input_summaries,
                    target_summaries := buildTargetSummaries po pin le s st }

/-- The one-hop closure property of C2 for source_summaries: every candidate
obtained by expanding an edge target through target_to_sources and composing
one further followed_by step with a reachable entry of the reached source is
already present, in the sense that try_to_add_summary would report no
change. -/
def OneHopClosedSources (po : PathOps TO SO) (pin : PathOps TI SI)
    (le : Summary SO SI → Summary SO SI → Bool) (s : SubgraphSt TO TI SO SI) : Prop :=
  ∀ scope, scope < s.children.length →
    ∀ output, output < (s.children.getD scope dummyWrapper).outputs →
      ∀ target ∈ (s.children.getD scope dummyWrapper).edges.getD output [],
        ∀ ns ∈ Subgraph.target_to_sources pin s target,
          ∀ next_scope next_output, ns.1 = Source.ScopeOutput next_scope next_output →
            ∀ entry ∈ get2 s.source_summaries next_scope next_output [],
              ∀ summary ∈ entry.2.elements,
                (try_to_add_summary le (get2 s.source_summaries scope output [])
                  entry.1 (Summary.followed_by po pin ns.2 summary)).2 = false

/-- The one-hop closure property of C2 for input_summaries. -/
def OneHopClosedInputs (po : PathOps TO SO) (pin : PathOps TI SI)
    (le : Summary SO SI → Summary SO SI → Bool) (s : SubgraphSt TO TI SO SI) : Prop :=
  ∀ input, input < s.inputs →
    ∀ target ∈ s.input_edges.getD input [],
      ∀ ns ∈ Subgraph.target_to_sources pin s target,
        ∀ next_scope next_output, ns.1 = Source.ScopeOutput next_scope next_output →
          ∀ entry ∈ get2 s.source_summaries next_scope next_output [],
            ∀ summary ∈ entry.2.elements,
              (try_to_add_summary le (s.input_summaries.getD input [])
                entry.1 (Summary.followed_by po pin ns.2 summary)).2 = false

/-- The source-defined partial order on Nat coordinates (total), for
witnesses. -/
def natCmp (a b : Nat) : Option Ordering := some (compare a b)

/-- The le relation the witnesses use on product summaries over Nat, derived
from the source partial_cmp. -/
def leNatSummary : Summary Nat Nat → Summary Nat Nat → Bool :=
  leOfCmp (Summary.partial_cmp natCmp natCmp)

/-- One element of a list steps by R, the rest unchanged; used to lift a
well-founded order on antichains to the tuple of all antichains of the
set_summaries loop state. -/
inductive ListStep (R : A → A → Prop) : List A → List A → Prop where
  | head {a' a : A} {l : List A} : R a' a → ListStep R (a' :: l) (a :: l)
  | tail {a : A} {l' l : List A} : ListStep R l' l → ListStep R (a :: l') (a :: l)

/-- One successful Antichain.insert; C3's precondition is that this relation
on antichains of summaries is well-founded (each antichain can change only
finitely often under try_to_add_summary insertions). -/
def AntichainStep (le : T → T → Bool) (a' a : Antichain T) : Prop :=
  ∃ x, a.insert le x = (a', true)

/-- The targets carried by a summary vector. -/
def vecTargets (v : List (Target × Antichain S)) : List Target := v.map Prod.fst

/-- The number of targets of U still missing from a vector; a successful
append strictly decreases it, an insert leaves it unchanged. -/
def capVec (U : Finset Target) (v : List (Target × Antichain S)) : Nat :=
  (U.filter (fun t => t ∉ vecTargets v)).card

/-- All antichains of the loop state, flattened in order. -/
def flattenSt (st : SummSt SO SI) : List (Antichain (Summary SO SI)) :=
  st.source_summaries.flatMap (fun row => row.flatMap (fun v => v.map Prod.snd)) ++
  st.input_summaries.flatMap (fun v => v.map Prod.snd)

/-- All targets occurring in the loop state's tables. -/
def allTargetsSt (st : SummSt SO SI) : List Target :=
  st.source_summaries.flatMap (fun row => row.flatMap vecTargets) ++
  st.input_summaries.flatMap vecTargets

/-- Total append capacity of the loop state relative to U. -/
def capSt (U : Finset Target) (st : SummSt SO SI) : Nat :=
  (st.source_summaries.map (fun row => (row.map (fun v => capVec U v)).sum)).sum +
  (st.input_summaries.map (fun v => capVec U v)).sum

/-- The decreasing order on loop states: the capacity drops (an append), or
it stays while one antichain steps (an insert). -/
def StateStep (le : Summary SO SI → Summary SO SI → Bool) (U : Finset Target)
    (st' st : SummSt SO SI) : Prop :=
  capSt U st' < capSt U st ∨
  (capSt U st' = capSt U st ∧
    ListStep (AntichainStep le) (flattenSt st') (flattenSt st))

/-- The shape facts the set_summaries loop preserves: tables sized per the
subgraph. -/
def ShapeSt (s : SubgraphSt TO TI SO SI) (st : SummSt SO SI) : Prop :=
  st.source_summaries.length = s.children.length ∧
  (∀ i, i < s.children.length →
    (st.source_summaries.getD i []).length = (s.children.getD i dummyWrapper).outputs) ∧
  st.input_summaries.length = s.inputs

/-- The invariant of the termination proof: well-shaped, and every target in
the tables lies in U. -/
def InvSt (s : SubgraphSt TO TI SO SI) (U : Finset Target) (st : SummSt SO SI) : Prop :=
  ShapeSt s st ∧ ∀ t ∈ allTargetsSt st, t ∈ U

/-- Validity of a vector location: the loop only ever writes at locations
drawn from the subgraph's children/outputs and inputs ranges. -/
def LocOK (s : SubgraphSt TO TI SO SI) (loc : (Nat × Nat) ⊕ Nat) : Prop :=
  match loc with
  | Sum.inl p => p.1 < s.children.length ∧ p.2 < (s.children.getD p.1 dummyWrapper).outputs
  | Sum.inr input => input < s.inputs

/-- The conjunction of facts tracked per loop step by the termination proof:
the invariant is preserved, the state moves along the reflexive transitive
closure of StateStep, and a cleared done flag witnesses a real step (or was
already clear). -/
def StepOK (s : SubgraphSt TO TI SO SI) (le : Summary SO SI → Summary SO SI → Bool)
    (U : Finset Target) (r : SummSt SO SI × Bool) (a : SummSt SO SI) (d : Bool) : Prop :=
  InvSt s U r.1 ∧ Relation.ReflTransGen (StateStep le U) r.1 a ∧
  (r.2 = false → d = false ∨ Relation.TransGen (StateStep le U) r.1 a)

/-- A rank on antichains of Unit product summaries: an antichain holding a
Local element is rank 0, a nonempty all-Outer antichain rank 1, the empty
antichain rank 2. Every successful insert strictly decreases it, making
AntichainStep over leUnitSummary concretely well-founded. -/
def antichainRankUnit (a : Antichain (Summary Unit Unit)) : Nat :=
  if a.elements.any (fun e => match e with
      | Summary.Local _ => true
      | Summary.Outer _ _ => false)
  then 0
  else if a.elements.isEmpty then 2 else 1

/-- Trivial path operations on Unit, for the C3 witness. -/
def unitOps : PathOps Unit Unit := ⟨(), (), fun _ t => t, fun _ _ => ()⟩

/-- The source-derived le on product summaries over Unit; its AntichainStep
relation is well-founded, discharging C3's precondition concretely. -/
def leUnitSummary : Summary Unit Unit → Summary Unit Unit → Bool :=
  leOfCmp (Summary.partial_cmp (fun _ _ => some Ordering.eq) (fun _ _ => some Ordering.eq))

/-- An all-empty subgraph state over Nat coordinates, used by witnesses. -/
def emptySubgraph : SubgraphSt Nat Nat Nat Nat :=
  ⟨0, .Local 0, 0, 0, [], [], [], [], [], [], [], [], [], ⟨[], [], [], [], []⟩,
   ⟨[]⟩, ⟨[]⟩, [], []⟩

/-- Witness child: one input, one output, a self-loop edge, an internal
summary advancing the inner coordinate by one. -/
def c2ChildW : ScopeWrapperSt Nat Nat Nat Nat :=
  { index := 0, inputs := 1, outputs := 1, edges := [[Target.ScopeInput 0 0]],
    notify := true, summary := [[⟨[Summary.Local 1]⟩]],
    guarantees := [], capabilities := [], outstanding_messages := [],
    internal_progress := [], consumed_messages := [], produced_messages := [],
    guarantee_changes := [] }

/-- Witness subgraph: a single child with a self-loop. -/
def c2StateW : SubgraphSt Nat Nat Nat Nat :=
  { emptySubgraph with children := [c2ChildW] }

/-- The state set_summaries produces on the witness subgraph. -/
def c2ResultW : SubgraphSt Nat Nat Nat Nat :=
  { c2StateW with
      source_summaries := [[[(Target.ScopeInput 0 0, ⟨[Summary.Local 0]⟩)]]],
      input_summaries := [],
      target_summaries := [[[(Target.ScopeInput 0 0, ⟨[Summary.Local 0]⟩)]]] }

/-- C3 witness subgraph over Unit coordinates: one child with a self-loop. -/
def c3StateW : SubgraphSt Unit Unit Unit Unit :=
  { index := 0, default_summary := .Local (), inputs := 0, outputs := 0,
    input_edges := [], external_summaries := [], source_summaries := [],
    target_summaries := [], input_summaries := [], external_capability := [],
    external_guarantee := [],
    children := [{ index := 0, inputs := 1, outputs := 1,
                   edges := [[Target.ScopeInput 0 0]], notify := true,
                   summary := [[⟨[Summary.Local ()]⟩]], guarantees := [],
                   capabilities := [], outstanding_messages := [],
                   internal_progress := [], consumed_messages := [],
                   produced_messages := [], guarantee_changes := [] }],
    input_messages := [], pointstamps := ⟨[], [], [], [], []⟩,
    pointstamp_messages_cm := ⟨[]⟩, pointstamp_internal_cm := ⟨[]⟩,
    pointstamp_messages := [], pointstamp_internal := [] }

end Timely

namespace Timely

/-- C5: results_in and followed_by on product summaries compute exactly the
four-case tables of the spec: Local acts on the inner coordinate only; Outer
acts on the outer coordinate and restarts the inner one from the default
timestamp; composition keeps the later Outer's inner part and composes outer
parts. -/
theorem c5_summary_tables (TO TI SO SI : Type) (po : PathOps TO SO) (pin : PathOps TI SI)
    (i j : SI) (so so1 so2 : SO) (tt : TO) (ti : TI) :
    Summary.results_in po pin (.Local i) (tt, ti) = (tt, pin.results_in i ti) ∧
    Summary.results_in po pin (.Outer so i) (tt, ti)
      = (po.results_in so tt, pin.results_in i pin.dflt_time) ∧
    Summary.followed_by po pin (.Local i) (.Local j) = .Local (pin.followed_by i j) ∧
    Summary.followed_by po pin (.Local i) (.Outer so j) = .Outer so j ∧
    Summary.followed_by po pin (.Outer so i) (.Local j) = .Outer so (pin.followed_by i j) ∧
    Summary.followed_by po pin (.Outer so1 i) (.Outer so2 j)
      = .Outer (po.followed_by so1 so2) j :=
  ⟨rfl, rfl, rfl, rfl, rfl, rfl⟩

/-- C4: when the component followed_by operations are associative, the
component defaults are two-sided identities of them, and the component
results_in operations satisfy the composition law, then followed_by on product
summaries is associative, Local of the default inner summary is a two-sided
identity for it, and results_in satisfies the composition law. -/
theorem c4_summary_algebra (TO TI SO SI : Type) (po : PathOps TO SO) (pin : PathOps TI SI)
    (hoass : ∀ a b c : SO, po.followed_by (po.followed_by a b) c
      = po.followed_by a (po.followed_by b c))
    (hiass : ∀ a b c : SI, pin.followed_by (pin.followed_by a b) c
      = pin.followed_by a (pin.followed_by b c))
    (hol : ∀ a : SO, po.followed_by po.dflt_sum a = a)
    (hor : ∀ a : SO, po.followed_by a po.dflt_sum = a)
    (hil : ∀ a : SI, pin.followed_by pin.dflt_sum a = a)
    (hir : ∀ a : SI, pin.followed_by a pin.dflt_sum = a)
    (hocomp : ∀ (a b : SO) (t : TO),
      po.results_in (po.followed_by a b) t = po.results_in b (po.results_in a t))
    (hicomp : ∀ (a b : SI) (t : TI),
      pin.results_in (pin.followed_by a b) t = pin.results_in b (pin.results_in a t))
    (a b c : Summary SO SI) (t : TO × TI) :
    Summary.followed_by po pin (Summary.followed_by po pin a b) c
      = Summary.followed_by po pin a (Summary.followed_by po pin b c) ∧
    Summary.followed_by po pin (Summary.dflt pin) a = a ∧
    Summary.followed_by po pin a (Summary.dflt pin) = a ∧
    Summary.results_in po pin (Summary.followed_by po pin a b) t
      = Summary.results_in po pin b (Summary.results_in po pin a t) := by
  obtain ⟨tt, ti⟩ := t
  refine ⟨?_, ?_, ?_, ?_⟩
  · cases a <;> cases b <;> cases c <;>
      simp [Summary.followed_by, hiass, hoass]
  · cases a <;> simp [Summary.followed_by, Summary.dflt, hil]
  · cases a <;> simp [Summary.followed_by, Summary.dflt, hir]
  · cases a <;> cases b <;>
      simp [Summary.followed_by, Summary.results_in, hicomp, hocomp]

/-- Witness for C4: the hypotheses hold for the additive Nat instance, and the
theorem evaluates there on concrete summaries. -/
theorem c4_summary_algebra_witness :
    Summary.followed_by natOps natOps
        (Summary.followed_by natOps natOps (.Outer 2 3) (.Local 4)) (.Outer 5 6)
      = Summary.followed_by natOps natOps (.Outer 2 3)
          (Summary.followed_by natOps natOps (.Local 4) (.Outer 5 6)) ∧
    Summary.followed_by natOps natOps (Summary.dflt natOps) (.Outer 2 3) = .Outer 2 3 ∧
    Summary.followed_by natOps natOps (.Outer 2 3) (Summary.dflt natOps) = .Outer 2 3 ∧
    Summary.results_in natOps natOps
        (Summary.followed_by natOps natOps (.Outer 2 3) (.Local 4)) (7, 8)
      = Summary.results_in natOps natOps (.Local 4)
          (Summary.results_in natOps natOps (.Outer 2 3) (7, 8)) :=
  c4_summary_algebra Nat Nat Nat Nat natOps natOps
    (fun a b c => Nat.add_assoc a b c) (fun a b c => Nat.add_assoc a b c)
    (fun a => Nat.zero_add a) (fun a => Nat.add_zero a)
    (fun a => Nat.zero_add a) (fun a => Nat.add_zero a)
    (fun a b t => (Nat.add_assoc t a b).symm) (fun a b t => (Nat.add_assoc t a b).symm)
    (.Outer 2 3) (.Local 4) (.Outer 5 6) (7, 8)

theorem listUpd_length (l : List A) (i : Nat) (f : A → A) :
    (listUpd l i f).length = l.length := by
  induction l generalizing i with
  | nil => rfl
  | cons a l ih =>
      cases i with
      | zero => rfl
      | succ n => simp [listUpd, ih]

theorem listUpd_getD_self (l : List A) (i : Nat) (f : A → A) (d : A) (h : i < l.length) :
    (listUpd l i f).getD i d = f (l.getD i d) := by
  induction l generalizing i with
  | nil => simp at h
  | cons a l ih =>
      cases i with
      | zero => rfl
      | succ n =>
          simp only [listUpd, List.getD_cons_succ]
          exact ih n (by simpa using h)

theorem listUpd_getD_ne (l : List A) (i j : Nat) (f : A → A) (d : A) (h : j ≠ i) :
    (listUpd l i f).getD j d = l.getD j d := by
  induction l generalizing i j with
  | nil => rfl
  | cons a l ih =>
      cases i with
      | zero =>
          cases j with
          | zero => exact absurd rfl h
          | succ m => rfl
      | succ n =>
          cases j with
          | zero => rfl
          | succ m =>
              simp only [listUpd, List.getD_cons_succ]
              exact ih n m (by omega)

theorem listUpd_oob (l : List A) (i : Nat) (f : A → A) (h : l.length ≤ i) :
    listUpd l i f = l := by
  induction l generalizing i with
  | nil => rfl
  | cons a l ih =>
      cases i with
      | zero => simp at h
      | succ n => simp [listUpd]; exact ih n (by simpa using h)

theorem padInputEdges_eq (edges : List (List Target)) (n : Nat) :
    padInputEdges edges n = edges ++ List.replicate (n - edges.length) [] := by
  induction edges, n using padInputEdges.induct with
  | case1 edges n h ih =>
      rw [padInputEdges, dif_pos h, ih, List.append_assoc]
      congr 1
      have h1 : n - edges.length = (n - (edges ++ [[]]).length) + 1 := by
        simp only [List.length_append, List.length_cons, List.length_nil]
        omega
      rw [h1, List.replicate_succ]
      rfl
  | case2 edges n h =>
      rw [padInputEdges, dif_neg h]
      have h1 : n - edges.length = 0 := by omega
      simp [h1]

/-- C9: update_target ignores a GraphOutput target entirely (all five buffers
unchanged), and on ScopeInput(scope, input) it changes target_counts at
exactly (scope, input) by a CountMap update, leaving the other buffers and
every other cell unchanged. -/
theorem c9_update_target_frame (T : Type) [DecidableEq T]
    (ps : PointstampCounter T) (t : T) (v : Int) (g scope input : Nat)
    (hs : scope < ps.target_counts.length)
    (hi : input < (ps.target_counts.getD scope []).length) :
    ps.update_target (.GraphOutput g) t v = ps ∧
    (ps.update_target (.ScopeInput scope input) t v).source_counts = ps.source_counts ∧
    (ps.update_target (.ScopeInput scope input) t v).input_counts = ps.input_counts ∧
    (ps.update_target (.ScopeInput scope input) t v).target_pushed = ps.target_pushed ∧
    (ps.update_target (.ScopeInput scope input) t v).output_pushed = ps.output_pushed ∧
    get2 (ps.update_target (.ScopeInput scope input) t v).target_counts scope input ⟨[]⟩
      = (get2 ps.target_counts scope input ⟨[]⟩).update t v ∧
    (∀ s i, s ≠ scope ∨ i ≠ input →
      get2 (ps.update_target (.ScopeInput scope input) t v).target_counts s i ⟨[]⟩
        = get2 ps.target_counts s i ⟨[]⟩) := by
  refine ⟨rfl, rfl, rfl, rfl, rfl, ?_, ?_⟩
  · show get2 (upd2 ps.target_counts scope input (fun cm => cm.update t v))
        scope input ⟨[]⟩ = _
    unfold get2 upd2
    rw [listUpd_getD_self _ _ _ _ hs, listUpd_getD_self _ _ _ _ hi]
  · intro s i hne
    show get2 (upd2 ps.target_counts scope input (fun cm => cm.update t v)) s i ⟨[]⟩ = _
    unfold get2 upd2
    rcases Decidable.em (s = scope) with hseq | hsne
    · subst hseq
      rcases hne with hne | hne
      · exact absurd rfl hne
      · rcases Nat.lt_or_ge s ps.target_counts.length with hlt | hge
        · rw [listUpd_getD_self _ _ _ _ hlt, listUpd_getD_ne _ _ _ _ _ hne]
        · rw [listUpd_oob _ _ _ hge]
    · rw [listUpd_getD_ne _ _ _ _ _ hsne]

/-- Witness for C9 at a concrete two-by-two counter state. -/
theorem c9_update_target_frame_witness :
    (0 : Nat) < ([[CountMap.mk [((3 : Nat), (1 : Int))]], [⟨[]⟩]] : List (List (CountMap Nat))).length ∧
    (PointstampCounter.update_target
        ⟨[], [[⟨[((3 : Nat), (1 : Int))]⟩], [⟨[]⟩]], [], [], []⟩ (.GraphOutput 7) 3 2
      = ⟨[], [[⟨[((3 : Nat), (1 : Int))]⟩], [⟨[]⟩]], [], [], []⟩) := by
  constructor
  · decide
  · exact (c9_update_target_frame Nat
      ⟨[], [[⟨[((3 : Nat), (1 : Int))]⟩], [⟨[]⟩]], [], [], []⟩ 3 2 7 0 0
      (by decide) (by decide)).1

/-- C10: connecting from GraphInput(i) pads input_edges with empty rows up to
length i + 1, appends the target at row i, leaves every other row and every
child's edges unchanged; skipped rows are left empty. -/
theorem c10_connect_graph_input (TO TI SO SI : Type) (s : SubgraphSt TO TI SO SI)
    (i : Nat) (target : Target) :
    (Subgraph.connect s (.GraphInput i) target).input_edges.length
      = max s.input_edges.length (i + 1) ∧
    (Subgraph.connect s (.GraphInput i) target).input_edges.getD i []
      = s.input_edges.getD i [] ++ [target] ∧
    (∀ j, j ≠ i →
      (Subgraph.connect s (.GraphInput i) target).input_edges.getD j []
        = if j < s.input_edges.length then s.input_edges.getD j [] else []) ∧
    (Subgraph.connect s (.GraphInput i) target).children = s.children := by
  have hpad := padInputEdges_eq s.input_edges (i + 1)
  have hlen : (padInputEdges s.input_edges (i + 1)).length
      = max s.input_edges.length (i + 1) := by
    rw [hpad]; simp; omega
  have hibound : i < (padInputEdges s.input_edges (i + 1)).length := by
    rw [hlen]; omega
  have hpadget : ∀ j, (padInputEdges s.input_edges (i + 1)).getD j []
      = if j < s.input_edges.length then s.input_edges.getD j [] else [] := by
    intro j
    rw [hpad]
    rcases Nat.lt_or_ge j s.input_edges.length with hj | hj
    · rw [if_pos hj]
      rw [List.getD_eq_getElem?_getD, List.getD_eq_getElem?_getD,
          List.getElem?_append_left hj]
    · rw [if_neg (by omega)]
      rw [List.getD_eq_getElem?_getD, List.getElem?_append_right hj]
      rcases Nat.lt_or_ge (j - s.input_edges.length) (i + 1 - s.input_edges.length) with hr | hr
      · simp [List.getElem?_replicate, hr]
      · rw [List.getElem?_eq_none (by simpa using hr)]
        rfl
  refine ⟨?_, ?_, ?_, rfl⟩
  · show (listUpd (padInputEdges s.input_edges (i + 1)) i _).length = _
    rw [listUpd_length, hlen]
  · show (listUpd (padInputEdges s.input_edges (i + 1)) i _).getD i [] = _
    rw [listUpd_getD_self _ _ _ _ hibound, hpadget i]
    rcases Nat.lt_or_ge i s.input_edges.length with hj | hj
    · rw [if_pos hj]
    · rw [if_neg (by omega)]
      rw [List.getD_eq_getElem?_getD, List.getElem?_eq_none (by simpa using hj)]
      rfl
  · intro j hj
    show (listUpd (padInputEdges s.input_edges (i + 1)) i _).getD j [] = _
    rw [listUpd_getD_ne _ _ _ _ _ hj, hpadget j]

/-- Witness for C10: connect a skipped-ahead graph input on the empty
subgraph. -/
theorem c10_connect_graph_input_witness :
    (2 : Nat) ≠ 1 ∧
    (Subgraph.connect emptySubgraph (.GraphInput 2) (.ScopeInput 0 0)).input_edges.getD 2 []
      = emptySubgraph.input_edges.getD 2 [] ++ [.ScopeInput 0 0] ∧
    (Subgraph.connect emptySubgraph (.GraphInput 2) (.ScopeInput 0 0)).input_edges.getD 1 []
      = [] := by
  have h := c10_connect_graph_input Nat Nat Nat Nat emptySubgraph 2 (.ScopeInput 0 0)
  refine ⟨by decide, h.2.1, ?_⟩
  have h2 := h.2.2.1 1 (by decide)
  rw [h2]
  decide

theorem listUpd_id (l : List A) (i : Nat) : listUpd l i (fun a => a) = l := by
  induction l generalizing i with
  | nil => rfl
  | cons a l ih =>
      cases i with
      | zero => rfl
      | succ n => simp only [listUpd]; rw [ih]

theorem listUpd_comp (l : List A) (i : Nat) (f g : A → A) :
    listUpd (listUpd l i f) i g = listUpd l i (fun a => g (f a)) := by
  induction l generalizing i with
  | nil => rfl
  | cons a l ih =>
      cases i with
      | zero => rfl
      | succ n => simp only [listUpd]; rw [ih]

theorem upd2_id (l : List (List A)) (i j : Nat) : upd2 l i j (fun a => a) = l := by
  unfold upd2
  have h : (fun (row : List A) => listUpd row j (fun a => a)) = fun row => row := by
    funext row; rw [listUpd_id]
  rw [h, listUpd_id]

theorem upd2_comp (l : List (List A)) (i j : Nat) (f g : A → A) :
    upd2 (upd2 l i j f) i j g = upd2 l i j (fun a => g (f a)) := by
  unfold upd2
  rw [listUpd_comp]
  congr 1
  funext row
  rw [listUpd_comp]

theorem foldl_upd2_fixed (xs : List B) (l : List (List A)) (i j : Nat) (g : B → A → A) :
    xs.foldl (fun l x => upd2 l i j (g x)) l
      = upd2 l i j (fun a => xs.foldl (fun a x => g x a) a) := by
  induction xs generalizing l with
  | nil => exact (upd2_id l i j).symm
  | cons x xs ih =>
      rw [List.foldl_cons, ih, upd2_comp]
      rfl

theorem foldl_listUpd_fixed (xs : List B) (l : List A) (i : Nat) (g : B → A → A) :
    xs.foldl (fun l x => listUpd l i (g x)) l
      = listUpd l i (fun a => xs.foldl (fun a x => g x a) a) := by
  induction xs generalizing l with
  | nil => exact (listUpd_id l i).symm
  | cons x xs ih =>
      rw [List.foldl_cons, ih, listUpd_comp]
      rfl

theorem foldl_listUpd_length (F : Nat → A → A) :
    ∀ (xs : List Nat) (l : List A),
      (xs.foldl (fun l x => listUpd l x (F x)) l).length = l.length := by
  intro xs
  induction xs with
  | nil => intro l; rfl
  | cons x xs ih =>
      intro l
      rw [List.foldl_cons, ih, listUpd_length]

theorem foldl_listUpd_ne (F : Nat → A → A) (i : Nat) (d : A) :
    ∀ (xs : List Nat), (∀ x ∈ xs, x ≠ i) → ∀ (l : List A),
      (xs.foldl (fun l x => listUpd l x (F x)) l).getD i d = l.getD i d := by
  intro xs
  induction xs with
  | nil => intro _ l; rfl
  | cons x xs ih =>
      intro h l
      rw [List.foldl_cons, ih (fun y hy => h y (List.mem_cons_of_mem _ hy))]
      exact listUpd_getD_ne _ _ _ _ _ (Ne.symm (h x (List.mem_cons_self _ _)))

theorem foldl_range_rows (F : Nat → A → A) (d : A) :
    ∀ (n : Nat) (init : List A) (i : Nat), i < n → n ≤ init.length →
      ((List.range n).foldl (fun l k => listUpd l k (F k)) init).getD i d
        = F i (init.getD i d) := by
  intro n
  induction n with
  | zero => intro init i h _; omega
  | succ n ih =>
      intro init i hi hlen
      rw [List.range_succ, List.foldl_append]
      simp only [List.foldl_cons, List.foldl_nil]
      rcases Nat.lt_or_ge i n with h | h
      · rw [listUpd_getD_ne _ _ _ _ _ (by omega)]
        exact ih init i h (by omega)
      · have hieq : i = n := by omega
        subst hieq
        have hlen2 : ((List.range i).foldl (fun l k => listUpd l k (F k)) init).length
            = init.length := foldl_listUpd_length _ _ _
        rw [listUpd_getD_self _ _ _ _ (by rw [hlen2]; omega)]
        have huntouched : ((List.range i).foldl (fun l k => listUpd l k (F k)) init).getD i d
            = init.getD i d := by
          refine foldl_listUpd_ne F i d (List.range i) ?_ init
          intro k hk
          rw [List.mem_range] at hk
          omega
        rw [huntouched]

theorem getD_replicate_of_lt (n : Nat) (a : A) (i : Nat) (d : A) (h : i < n) :
    (List.replicate n a).getD i d = a := by
  induction n generalizing i with
  | zero => omega
  | succ n ih =>
      cases i with
      | zero => rfl
      | succ m =>
          rw [List.replicate_succ]
          exact ih m (by omega)

theorem foldl_fun_congr (f g : A → B → A) (h : ∀ a b, f a b = g a b) (init : A) (xs : List B) :
    xs.foldl f init = xs.foldl g init := by
  have he : f = g := funext (fun a => funext (h a))
  rw [he]

theorem c8_entry_step_eq (leo : SO → SO → Bool) (dflt_so : SO)
    (summaries : List (List (Antichain SO))) (input : Nat)
    (entry : Target × Antichain (Summary SO SI)) :
    (match entry.1 with
      | .GraphOutput output =>
          entry.2.elements.foldl
            (fun summaries s =>
              upd2 summaries input output (fun a => (a.insert leo (projOuter dflt_so s)).1))
            summaries
      | .ScopeInput _ _ => summaries)
      = listUpd summaries input (rowEntryF leo dflt_so entry) := by
  rcases entry with ⟨target, ac⟩
  cases target with
  | GraphOutput o =>
      show ac.elements.foldl
          (fun summaries s =>
            upd2 summaries input o (fun a => (a.insert leo (projOuter dflt_so s)).1))
          summaries = _
      rw [foldl_upd2_fixed]
      rfl
  | ScopeInput a b => exact (listUpd_id summaries input).symm

theorem c8_innerfold_eq (leo : SO → SO → Bool) (dflt_so : SO)
    (input : Nat) :
    ∀ (entries : List (Target × Antichain (Summary SO SI)))
      (summaries : List (List (Antichain SO))),
      entries.foldl
        (fun summaries entry =>
          match entry.1 with
          | .GraphOutput output =>
              entry.2.elements.foldl
                (fun summaries s =>
                  upd2 summaries input output (fun a => (a.insert leo (projOuter dflt_so s)).1))
                summaries
          | .ScopeInput _ _ => summaries)
        summaries
      = listUpd summaries input (rowFun leo dflt_so entries) := by
  intro entries
  induction entries with
  | nil => intro summaries; exact (listUpd_id summaries input).symm
  | cons e entries ih =>
      intro summaries
      rw [List.foldl_cons, c8_entry_step_eq, ih, listUpd_comp]
      rfl

theorem c8_row_getD (leo : SO → SO → Bool) (dflt_so : SO) (output : Nat) :
    ∀ (entries : List (Target × Antichain (Summary SO SI))) (row : List (Antichain SO)),
      output < row.length →
      (rowFun leo dflt_so entries row).getD output Antichain.empty
        = (specContrib output entries).foldl
            (fun a s => (a.insert leo (projOuter dflt_so s)).1)
            (row.getD output Antichain.empty) := by
  intro entries
  induction entries with
  | nil =>
      intro row _
      simp [rowFun, specContrib]
  | cons e entries ih =>
      intro row hrow
      rcases e with ⟨target, ac⟩
      cases target with
      | GraphOutput o =>
          have hstep : rowFun leo dflt_so ((⟨.GraphOutput o, ac⟩ :
              Target × Antichain (Summary SO SI)) :: entries) row
              = rowFun leo dflt_so entries
                  (listUpd row o (fun a =>
                    ac.elements.foldl (fun a s => (a.insert leo (projOuter dflt_so s)).1) a)) := rfl
          have hcontrib : specContrib output ((⟨.GraphOutput o, ac⟩ :
              Target × Antichain (Summary SO SI)) :: entries)
              = (if o = output then ac.elements else []) ++ specContrib output entries := by
            simp [specContrib]
          rw [hstep, hcontrib, List.foldl_append]
          rw [ih _ (by rw [listUpd_length]; exact hrow)]
          rcases Decidable.em (o = output) with heq | hne
          · subst heq
            rw [if_pos rfl, listUpd_getD_self _ _ _ _ hrow]
          · rw [if_neg hne, listUpd_getD_ne _ _ _ _ _ (Ne.symm hne)]
            rfl
      | ScopeInput a b =>
          have hstep : rowFun leo dflt_so ((⟨.ScopeInput a b, ac⟩ :
              Target × Antichain (Summary SO SI)) :: entries) row
              = rowFun leo dflt_so entries row := rfl
          have hcontrib : specContrib output ((⟨.ScopeInput a b, ac⟩ :
              Target × Antichain (Summary SO SI)) :: entries)
              = specContrib output entries := by
            simp [specContrib]
          rw [hstep, hcontrib]
          exact ih row hrow

/-- C8: after get_internal_summary, the returned table's cell at
(input, output) is exactly the antichain built by scanning
input_summaries[input] and inserting, for every entry targeting
GraphOutput(output) and every summary s in its antichain, the default outer
summary for Local and the outer component for Outer; nothing else
contributes. -/
theorem c8_internal_summary_table (SO SI : Type) (leo : SO → SO → Bool) (dflt_so : SO)
    (inputs outputs : Nat)
    (input_summaries : List (List (Target × Antichain (Summary SO SI))))
    (input output : Nat) (hin : input < inputs) (hout : output < outputs) :
    get2 (internalSummaryTable leo dflt_so inputs outputs input_summaries)
        input output Antichain.empty
      = specCell leo dflt_so output (input_summaries.getD input []) := by
  have htab : internalSummaryTable leo dflt_so inputs outputs input_summaries
      = (List.range inputs).foldl
          (fun l k => listUpd l k (rowFun leo dflt_so (input_summaries.getD k [])))
          (List.replicate inputs (List.replicate outputs Antichain.empty)) := by
    unfold internalSummaryTable
    exact foldl_fun_congr _ _
      (fun a b => c8_innerfold_eq leo dflt_so b (input_summaries.getD b []) a) _ _
  rw [htab]
  unfold get2
  rw [foldl_range_rows _ [] inputs _ input hin (by rw [List.length_replicate])]
  rw [getD_replicate_of_lt _ _ _ _ hin]
  rw [c8_row_getD leo dflt_so output _ _ (by rw [List.length_replicate]; exact hout)]
  rw [getD_replicate_of_lt _ _ _ _ hout]
  rfl

/-- Witness for C8 on a concrete one-input, two-output instance with one
Local and one Outer summary reaching output 0. -/
theorem c8_internal_summary_table_witness :
    (0 : Nat) < 1 ∧ (0 : Nat) < 2 ∧
    get2 (internalSummaryTable (fun a b => decide (a ≤ b)) (0 : Nat) 1 2
        [[(Target.GraphOutput 0,
            ⟨[Summary.Local (1 : Nat), Summary.Outer (5 : Nat) 0]⟩),
          (Target.ScopeInput 0 0, ⟨[Summary.Local 2]⟩)]])
        0 0 Antichain.empty
      = specCell (fun a b => decide (a ≤ b)) (0 : Nat) 0
          [(Target.GraphOutput 0,
            ⟨[Summary.Local (1 : Nat), Summary.Outer (5 : Nat) 0]⟩),
           (Target.ScopeInput 0 0, ⟨[Summary.Local 2]⟩)] :=
  ⟨by decide, by decide,
    c8_internal_summary_table Nat Nat (fun a b => decide (a ≤ b)) 0 1 2
      [[(Target.GraphOutput 0, ⟨[Summary.Local 1, Summary.Outer 5 0]⟩),
        (Target.ScopeInput 0 0, ⟨[Summary.Local 2]⟩)]]
      0 0 (by decide) (by decide)⟩

theorem flatMap_nil_fun (xs : List A) : xs.flatMap (fun _ => ([] : List B)) = [] := by
  induction xs with
  | nil => rfl
  | cons x xs ih => simp [List.flatMap_cons, ih]

theorem routeProducedEntry_char (time : T) (delta : Int) :
    ∀ (targets : List Target) (msgs : List (Nat × Nat × T × Int)) (outs : List (Nat × T × Int)),
      routeProducedEntry targets time delta msgs outs
        = (msgs ++ targets.filterMap (fun t => match t with
              | .ScopeInput tgt tgt_in => some (tgt, tgt_in, time, delta)
              | .GraphOutput _ => none),
           outs ++ targets.filterMap (fun t => match t with
              | .GraphOutput go => some (go, time, delta)
              | .ScopeInput _ _ => none)) := by
  intro targets
  induction targets with
  | nil => intro msgs outs; simp [routeProducedEntry]
  | cons t targets ih =>
      intro msgs outs
      cases t with
      | ScopeInput a b =>
          show routeProducedEntry targets time delta (msgs ++ [(a, b, time, delta)]) outs = _
          rw [ih]
          simp [List.filterMap_cons]
      | GraphOutput g =>
          show routeProducedEntry targets time delta msgs (outs ++ [(g, time, delta)]) = _
          rw [ih]
          simp [List.filterMap_cons]

theorem routeProduced_char (targets : List Target) :
    ∀ (entries : List (T × Int)) (msgs : List (Nat × Nat × T × Int))
      (outs : List (Nat × T × Int)),
      routeProduced targets entries msgs outs
        = (msgs ++ entries.flatMap (fun td => targets.filterMap (fun t => match t with
             | .ScopeInput tgt tgt_in => some (tgt, tgt_in, td.1, td.2)
             | .GraphOutput _ => none)),
           outs ++ entries.flatMap (fun td => targets.filterMap (fun t => match t with
             | .GraphOutput go => some (go, td.1, td.2)
             | .ScopeInput _ _ => none))) := by
  intro entries
  induction entries with
  | nil => intro msgs outs; simp [routeProduced]
  | cons td entries ih =>
      intro msgs outs
      show routeProduced targets entries
          (routeProducedEntry targets td.1 td.2 msgs outs).1
          (routeProducedEntry targets td.1 td.2 msgs outs).2 = _
      rw [routeProducedEntry_char]
      rw [ih]
      simp [List.flatMap_cons, List.append_assoc]

theorem pullAcc_fold_char (TO TI SO SI : Type)
    (step : PullPsRes TO TI SO SI → Nat → PullPsRes TO TI SO SI)
    (M I : Nat → ProgressVec (TO × TI)) (O : Nat → List (Nat × (TO × TI) × Int))
    (h : ∀ acc x, (step acc x).msgs = acc.msgs ++ M x ∧
        (step acc x).internal = acc.internal ++ I x ∧
        (step acc x).outs = acc.outs ++ O x ∧
        (step acc x).active = acc.active) :
    ∀ (xs : List Nat) (acc : PullPsRes TO TI SO SI),
      (xs.foldl step acc).msgs = acc.msgs ++ xs.flatMap M ∧
      (xs.foldl step acc).internal = acc.internal ++ xs.flatMap I ∧
      (xs.foldl step acc).outs = acc.outs ++ xs.flatMap O ∧
      (xs.foldl step acc).active = acc.active := by
  intro xs
  induction xs with
  | nil => intro acc; simp
  | cons x xs ih =>
      intro acc
      rw [List.foldl_cons]
      obtain ⟨h1, h2, h3, h4⟩ := ih (step acc x)
      obtain ⟨g1, g2, g3, g4⟩ := h acc x
      refine ⟨?_, ?_, ?_, ?_⟩
      · rw [h1, g1, List.flatMap_cons, List.append_assoc]
      · rw [h2, g2, List.flatMap_cons, List.append_assoc]
      · rw [h3, g3, List.flatMap_cons, List.append_assoc]
      · rw [h4, g4]

theorem pullStep1_char (TO TI SO SI : Type) (w : ScopeWrapperSt TO TI SO SI)
    (res : ChildPullRes (TO × TI)) (acc : PullPsRes TO TI SO SI) (output : Nat) :
    (pullStep1 w res acc output).msgs = acc.msgs ++
        ((res.produced_messages.getD output ⟨[]⟩).elems).flatMap (fun td =>
          (w.edges.getD output []).filterMap (fun t => match t with
            | .ScopeInput tgt tgt_in => some (tgt, tgt_in, td.1, td.2)
            | .GraphOutput _ => none)) ∧
    (pullStep1 w res acc output).internal = acc.internal ++
        ((res.internal_progress.getD output ⟨[]⟩).elems.map
          (fun td => (w.index, output, td.1, td.2))) ∧
    (pullStep1 w res acc output).outs = acc.outs ++
        ((res.produced_messages.getD output ⟨[]⟩).elems).flatMap (fun td =>
          (w.edges.getD output []).filterMap (fun t => match t with
            | .GraphOutput go => some (go, td.1, td.2)
            | .ScopeInput _ _ => none)) ∧
    (pullStep1 w res acc output).active = acc.active := by
  unfold pullStep1
  rw [routeProduced_char]
  exact ⟨rfl, rfl, rfl, rfl⟩

theorem pullStep2_char (TO TI SO SI : Type) (w : ScopeWrapperSt TO TI SO SI)
    (res : ChildPullRes (TO × TI)) (acc : PullPsRes TO TI SO SI) (input : Nat) :
    (pullStep2 w res acc input).msgs = acc.msgs ++
        ((res.consumed_messages.getD input ⟨[]⟩).elems.map
          (fun td => (w.index, input, td.1, -td.2))) ∧
    (pullStep2 w res acc input).internal = acc.internal ++ [] ∧
    (pullStep2 w res acc input).outs = acc.outs ++ [] ∧
    (pullStep2 w res acc input).active = acc.active := by
  unfold pullStep2
  refine ⟨rfl, ?_, ?_, rfl⟩
  · simp
  · simp

/-- C7: pull_pointstamps routes each drained produced entry once per edge
target of its output (onto the message log for ScopeInput targets, to the
output_action calls for GraphOutput targets), appends each drained
internal-progress entry as (self.index, output, time, delta), appends each
drained consumed entry as (self.index, input, time, -delta), and returns
exactly the child's activity flag. -/
theorem c7_pull_pointstamps (TO TI SO SI : Type) (w : ScopeWrapperSt TO TI SO SI)
    (res : ChildPullRes (TO × TI)) (msgs0 internal0 : ProgressVec (TO × TI))
    (outs0 : List (Nat × (TO × TI) × Int)) :
    (w.pull_pointstamps res msgs0 internal0 outs0).msgs
        = msgs0 ++ producedRouting w res ++ consumedRouting w res ∧
    (w.pull_pointstamps res msgs0 internal0 outs0).internal
        = internal0 ++ internalRouting w res ∧
    (w.pull_pointstamps res msgs0 internal0 outs0).outs
        = outs0 ++ producedOutActs w res ∧
    (w.pull_pointstamps res msgs0 internal0 outs0).active = res.active := by
  unfold ScopeWrapperSt.pull_pointstamps
  obtain ⟨h2m, h2i, h2o, h2a⟩ := pullAcc_fold_char TO TI SO SI (pullStep2 w res)
    (fun input => ((res.consumed_messages.getD input ⟨[]⟩).elems.map
      (fun td => (w.index, input, td.1, -td.2))))
    (fun _ => []) (fun _ => [])
    (fun acc x => pullStep2_char TO TI SO SI w res acc x)
    (List.range w.inputs)
    ((List.range w.outputs).foldl (pullStep1 w res)
      (⟨{ w with internal_progress := res.internal_progress,
                 consumed_messages := res.consumed_messages,
                 produced_messages := res.produced_messages },
         msgs0, internal0, outs0, res.active⟩ : PullPsRes TO TI SO SI))
  obtain ⟨h1m, h1i, h1o, h1a⟩ := pullAcc_fold_char TO TI SO SI (pullStep1 w res)
    (fun output => ((res.produced_messages.getD output ⟨[]⟩).elems).flatMap (fun td =>
      (w.edges.getD output []).filterMap (fun t => match t with
        | .ScopeInput tgt tgt_in => some (tgt, tgt_in, td.1, td.2)
        | .GraphOutput _ => none)))
    (fun output => ((res.internal_progress.getD output ⟨[]⟩).elems.map
      (fun td => (w.index, output, td.1, td.2))))
    (fun output => ((res.produced_messages.getD output ⟨[]⟩).elems).flatMap (fun td =>
      (w.edges.getD output []).filterMap (fun t => match t with
        | .GraphOutput go => some (go, td.1, td.2)
        | .ScopeInput _ _ => none)))
    (fun acc x => pullStep1_char TO TI SO SI w res acc x)
    (List.range w.outputs)
    (⟨{ w with internal_progress := res.internal_progress,
               consumed_messages := res.consumed_messages,
               produced_messages := res.produced_messages },
       msgs0, internal0, outs0, res.active⟩ : PullPsRes TO TI SO SI)
  refine ⟨?_, ?_, ?_, ?_⟩
  · rw [h2m, h1m]
    rfl
  · rw [h2i, h1i, flatMap_nil_fun, List.append_nil]
    rfl
  · rw [h2o, h1o, flatMap_nil_fun, List.append_nil]
    rfl
  · rw [h2a, h1a]

theorem foldl_pres (p : A → Prop) (f : A → B → A) (h : ∀ a b, p a → p (f a b)) :
    ∀ (xs : List B) (a : A), p a → p (xs.foldl f a) := by
  intro xs
  induction xs with
  | nil => intro a ha; exact ha
  | cons x xs ih => intro a ha; exact ih _ (h a x ha)

theorem all_clear_rows (l : List (List (CountMap T))) :
    ((l.map (fun row => row.map CountMap.clear)).all
      (fun row => row.all (fun cm => cm.elems.isEmpty))) = true := by
  rw [List.all_eq_true]
  intro row hrow
  rw [List.mem_map] at hrow
  obtain ⟨row0, _, hEq⟩ := hrow
  subst hEq
  rw [List.all_eq_true]
  intro cm hcm
  rw [List.mem_map] at hcm
  obtain ⟨cm0, _, hEq2⟩ := hcm
  subst hEq2
  rfl

theorem all_clear_one (l : List (CountMap T)) :
    ((l.map CountMap.clear).all (fun cm => cm.elems.isEmpty)) = true := by
  rw [List.all_eq_true]
  intro cm hcm
  rw [List.mem_map] at hcm
  obtain ⟨cm0, _, hEq⟩ := hcm
  subst hEq
  rfl

theorem push_to_targets_logs_pres (TO TI SO SI : Type) [DecidableEq TO] [DecidableEq TI]
    (po : PathOps TO SO) (pin : PathOps TI SI) (s : SubgraphSt TO TI SO SI) :
    (Subgraph.push_pointstamps_to_targets po pin s).pointstamp_messages
        = s.pointstamp_messages ∧
    (Subgraph.push_pointstamps_to_targets po pin s).pointstamp_internal
        = s.pointstamp_internal := by
  unfold Subgraph.push_pointstamps_to_targets
  refine foldl_pres
    (fun (x : SubgraphSt TO TI SO SI) => x.pointstamp_messages = s.pointstamp_messages ∧
      x.pointstamp_internal = s.pointstamp_internal)
    (pptInputStep po pin) (fun a b hp => hp) _ _ ?_
  refine foldl_pres
    (fun (x : SubgraphSt TO TI SO SI) => x.pointstamp_messages = s.pointstamp_messages ∧
      x.pointstamp_internal = s.pointstamp_internal)
    (pptChildStep po pin) ?_ _ _ ⟨rfl, rfl⟩
  intro a b hp
  unfold pptChildStep
  refine foldl_pres
    (fun (x : SubgraphSt TO TI SO SI) => x.pointstamp_messages = s.pointstamp_messages ∧
      x.pointstamp_internal = s.pointstamp_internal)
    (pptSourceStep po pin b) (fun a b hp => hp) _ _ ?_
  exact foldl_pres
    (fun (x : SubgraphSt TO TI SO SI) => x.pointstamp_messages = s.pointstamp_messages ∧
      x.pointstamp_internal = s.pointstamp_internal)
    (pptTargetStep po pin b) (fun a b hp => hp) _ _ hp

theorem pipPushChildren_logs_pres (TO TI SO SI : Type) [DecidableEq TO] [DecidableEq TI]
    (leT : (TO × TI) → (TO × TI) → Bool) (s : SubgraphSt TO TI SO SI) :
    (pipPushChildren leT s).pointstamp_messages = s.pointstamp_messages ∧
    (pipPushChildren leT s).pointstamp_internal = s.pointstamp_internal := by
  unfold pipPushChildren
  exact foldl_pres
    (fun (x : SubgraphSt TO TI SO SI) => x.pointstamp_messages = s.pointstamp_messages ∧
      x.pointstamp_internal = s.pointstamp_internal)
    (pipPushChildStep leT) (fun a b hp => hp) _ _ ⟨rfl, rfl⟩

theorem pipOutputs_logs_pres (TO TI SO SI : Type) [DecidableEq TO]
    (leO : TO → TO → Bool) (s : SubgraphSt TO TI SO SI) (internal : List (CountMap TO)) :
    (pipOutputs leO s internal).1.pointstamp_messages = s.pointstamp_messages ∧
    (pipOutputs leO s internal).1.pointstamp_internal = s.pointstamp_internal := by
  unfold pipOutputs
  refine foldl_pres
    (fun (x : SubgraphSt TO TI SO SI × List (CountMap TO)) =>
      x.1.pointstamp_messages = s.pointstamp_messages ∧
      x.1.pointstamp_internal = s.pointstamp_internal)
    (pipOutStep leO) ?_ _ _ ⟨rfl, rfl⟩
  intro a b hp
  unfold pipOutStep
  exact foldl_pres
    (fun (x : SubgraphSt TO TI SO SI × List (CountMap TO)) =>
      x.1.pointstamp_messages = s.pointstamp_messages ∧
      x.1.pointstamp_internal = s.pointstamp_internal)
    (pipOutEntryStep leO b) (fun a b hp => hp) _ _ hp

theorem pipAbsorb_logs (TO TI SO SI : Type) [DecidableEq TO] [DecidableEq TI]
    (leT : (TO × TI) → (TO × TI) → Bool) (s : SubgraphSt TO TI SO SI) :
    (pipAbsorb leT s).pointstamp_messages = [] ∧
    (pipAbsorb leT s).pointstamp_internal = [] := by
  unfold pipAbsorb
  refine foldl_pres
    (fun (x : SubgraphSt TO TI SO SI) =>
      x.pointstamp_messages = [] ∧ x.pointstamp_internal = [])
    (absorbIntStep leT) (fun a b hp => hp) _ _ ?_
  exact foldl_pres
    (fun (x : SubgraphSt TO TI SO SI) =>
      x.pointstamp_messages = [] ∧ x.pointstamp_internal = [])
    (absorbMsgStep leT) (fun a b hp => hp) _ _ ⟨rfl, rfl⟩

set_option maxHeartbeats 4000000 in
/-- C6: at the exit of pull_internal_progress every target_pushed and
output_pushed CountMap is empty, and both pointstamp log vectors are
empty. -/
theorem c6_pull_internal_progress_clears (TO TI SO SI : Type)
    [DecidableEq TO] [DecidableEq TI]
    (po : PathOps TO SO) (pin : PathOps TI SI)
    (leT : (TO × TI) → (TO × TI) → Bool) (leO : TO → TO → Bool)
    (childPulls : Nat → ChildPullRes (TO × TI))
    (progcast : ProgressVec (TO × TI) → ProgressVec (TO × TI) →
      ProgressVec (TO × TI) × ProgressVec (TO × TI))
    (s0 : SubgraphSt TO TI SO SI)
    (internal0 consumed0 produced0 : List (CountMap TO)) :
    ((Subgraph.pull_internal_progress po pin leT leO childPulls progcast s0
        internal0 consumed0 produced0).state.pointstamps.target_pushed.all
      (fun row => row.all (fun cm => cm.elems.isEmpty))) = true ∧
    ((Subgraph.pull_internal_progress po pin leT leO childPulls progcast s0
        internal0 consumed0 produced0).state.pointstamps.output_pushed.all
      (fun cm => cm.elems.isEmpty)) = true ∧
    (Subgraph.pull_internal_progress po pin leT leO childPulls progcast s0
        internal0 consumed0 produced0).state.pointstamp_messages = [] ∧
    (Subgraph.pull_internal_progress po pin leT leO childPulls progcast s0
        internal0 consumed0 produced0).state.pointstamp_internal = [] := by
  refine ⟨all_clear_rows _, all_clear_one _, ?_, ?_⟩
  · show (pipOutputs leO
        (pipPushChildren leT
          (Subgraph.push_pointstamps_to_targets po pin
            (pipAbsorb leT (pipBroadcast progcast
              (pipChildren childPulls
                (pipInputs (⟨s0, internal0, consumed0, produced0, false⟩ :
                  PipAcc TO TI SO SI))).s))))
        (pipChildren childPulls
          (pipInputs (⟨s0, internal0, consumed0, produced0, false⟩ :
            PipAcc TO TI SO SI))).internal).1.pointstamp_messages = []
    rw [(pipOutputs_logs_pres TO TI SO SI _ _ _).1,
        (pipPushChildren_logs_pres TO TI SO SI _ _).1,
        (push_to_targets_logs_pres TO TI SO SI _ _ _).1]
    exact (pipAbsorb_logs TO TI SO SI _ _).1
  · show (pipOutputs leO
        (pipPushChildren leT
          (Subgraph.push_pointstamps_to_targets po pin
            (pipAbsorb leT (pipBroadcast progcast
              (pipChildren childPulls
                (pipInputs (⟨s0, internal0, consumed0, produced0, false⟩ :
                  PipAcc TO TI SO SI))).s))))
        (pipChildren childPulls
          (pipInputs (⟨s0, internal0, consumed0, produced0, false⟩ :
            PipAcc TO TI SO SI))).internal).1.pointstamp_internal = []
    rw [(pipOutputs_logs_pres TO TI SO SI _ _ _).2,
        (pipPushChildren_logs_pres TO TI SO SI _ _).2,
        (push_to_targets_logs_pres TO TI SO SI _ _ _).2]
    exact (pipAbsorb_logs TO TI SO SI _ _).2

theorem insert_false_eq (le : T → T → Bool) (a : Antichain T) (x : T)
    (h : (a.insert le x).2 = false) : (a.insert le x).1 = a := by
  unfold Antichain.insert at h ⊢
  by_cases hc : a.elements.any (fun e => le e x)
  · rw [if_pos hc]
  · rw [if_neg hc] at h
    simp at h

theorem try_to_add_false_eq (le : S → S → Bool) :
    ∀ (v : List (Target × Antichain S)) (t : Target) (x : S),
      (try_to_add_summary le v t x).2 = false → (try_to_add_summary le v t x).1 = v := by
  intro v
  induction v with
  | nil =>
      intro t x h
      simp [try_to_add_summary] at h
  | cons e v ih =>
      intro t x h
      rcases e with ⟨te, ae⟩
      by_cases he : t = te
      · rw [show try_to_add_summary le ((te, ae) :: v) t x
            = ((te, (ae.insert le x).1) :: v, (ae.insert le x).2) from by
              simp [try_to_add_summary, he]] at h ⊢
        simp at h ⊢
        exact insert_false_eq le ae x h
      · rw [show try_to_add_summary le ((te, ae) :: v) t x
            = ((te, ae) :: (try_to_add_summary le v t x).1,
               (try_to_add_summary le v t x).2) from by
              simp [try_to_add_summary, he]] at h ⊢
        simp at h ⊢
        exact ih t x h

theorem listUpd_eq_self (l : List A) (i : Nat) (g : A → A) (d : A)
    (h : g (l.getD i d) = l.getD i d) : listUpd l i g = l := by
  induction l generalizing i with
  | nil => rfl
  | cons a l ih =>
      cases i with
      | zero =>
          simp only [List.getD_cons_zero] at h
          simp [listUpd, h]
      | succ n =>
          simp only [List.getD_cons_succ] at h
          simp [listUpd, ih n h]

theorem setVec_getVec (a : SummSt SO SI) (loc : (Nat × Nat) ⊕ Nat) :
    setVec a loc (getVec a loc) = a := by
  cases loc with
  | inl p =>
      show { a with
               source_summaries := (upd2 a.source_summaries p.1 p.2
                                      (fun _ => get2 a.source_summaries p.1 p.2 [])) } = a
      have h : upd2 a.source_summaries p.1 p.2 (fun _ => get2 a.source_summaries p.1 p.2 [])
          = a.source_summaries := by
        unfold upd2 get2
        refine listUpd_eq_self _ _ _ [] ?_
        refine listUpd_eq_self _ _ _ [] ?_
        rfl
      rw [h]
  | inr input =>
      show { a with
               input_summaries := (listUpd a.input_summaries input
                                     (fun _ => a.input_summaries.getD input [])) } = a
      have h : listUpd a.input_summaries input (fun _ => a.input_summaries.getD input [])
          = a.input_summaries := by
        refine listUpd_eq_self _ _ _ [] ?_
        rfl
      rw [h]

theorem applyCandidate_mono (le : Summary SO SI → Summary SO SI → Bool)
    (st : SummSt SO SI) (loc : (Nat × Nat) ⊕ Nat) (nt : Target) (cand : Summary SO SI)
    (d : Bool) (h : (applyCandidate le st loc nt cand d).2 = true) : d = true := by
  unfold applyCandidate at h
  simp at h
  exact h.1

theorem applyCandidate_true (le : Summary SO SI → Summary SO SI → Bool)
    (a : SummSt SO SI) (loc : (Nat × Nat) ⊕ Nat) (nt : Target) (cand : Summary SO SI)
    (h : (applyCandidate le a loc nt cand true).2 = true) :
    (applyCandidate le a loc nt cand true).1 = a ∧
      (try_to_add_summary le (getVec a loc) nt cand).2 = false := by
  have hfalse : (try_to_add_summary le (getVec a loc) nt cand).2 = false := by
    unfold applyCandidate at h
    simp at h
    exact h
  refine ⟨?_, hfalse⟩
  show setVec a loc (try_to_add_summary le (getVec a loc) nt cand).1 = a
  rw [try_to_add_false_eq le _ _ _ hfalse]
  exact setVec_getVec a loc

theorem foldl_done_mono {σ α : Type} (g : σ × Bool → α → σ × Bool)
    (hmono : ∀ (a : σ) (d : Bool) (x : α), (g (a, d) x).2 = true → d = true) :
    ∀ (xs : List α) (a : σ) (d : Bool), (xs.foldl g (a, d)).2 = true → d = true := by
  intro xs
  induction xs with
  | nil => intro a d h; exact h
  | cons x xs ih =>
      intro a d h
      rw [List.foldl_cons] at h
      have hpair : g (a, d) x = ((g (a, d) x).1, (g (a, d) x).2) := rfl
      rw [hpair] at h
      exact hmono a d x (ih _ _ h)

theorem foldl_done_true {σ α : Type} (g : σ × Bool → α → σ × Bool)
    (Q : α → σ → Prop)
    (hmono : ∀ (a : σ) (d : Bool) (x : α), (g (a, d) x).2 = true → d = true)
    (hg : ∀ (a : σ) (x : α), (g (a, true) x).2 = true → (g (a, true) x).1 = a ∧ Q x a) :
    ∀ (xs : List α) (a : σ) (d : Bool),
      (xs.foldl g (a, d)).2 = true →
      (xs.foldl g (a, d)).1 = a ∧ d = true ∧ ∀ x ∈ xs, Q x a := by
  intro xs
  induction xs with
  | nil =>
      intro a d h
      exact ⟨rfl, h, fun x hx => absurd hx (List.not_mem_nil x)⟩
  | cons x xs ih =>
      intro a d h
      rw [List.foldl_cons] at h ⊢
      have hpair : g (a, d) x = ((g (a, d) x).1, (g (a, d) x).2) := rfl
      rw [hpair] at h ⊢
      obtain ⟨_, h2, _⟩ := ih (g (a, d) x).1 (g (a, d) x).2 h
      have hd : d = true := hmono a d x h2
      subst hd
      obtain ⟨hs, hq⟩ := hg a x h2
      rw [hs, h2] at h ⊢
      obtain ⟨k1, _, k3⟩ := ih a true h
      refine ⟨k1, rfl, ?_⟩
      intro y hy
      rcases List.mem_cons.mp hy with hy | hy
      · subst hy; exact hq
      · exact k3 y hy

theorem candStep_mono {TO TI SO SI : Type} (po : PathOps TO SO) (pin : PathOps TI SI)
    (le : Summary SO SI → Summary SO SI → Bool) (loc : (Nat × Nat) ⊕ Nat)
    (nt : Target) (nsum : Summary SO SI) :
    ∀ (a : SummSt SO SI) (d : Bool) (x : Summary SO SI),
      (candStep po pin le loc nt nsum (a, d) x).2 = true → d = true :=
  fun a d x h => applyCandidate_mono le a loc nt (Summary.followed_by po pin nsum x) d h

theorem candStep_true {TO TI SO SI : Type} (po : PathOps TO SO) (pin : PathOps TI SI)
    (le : Summary SO SI → Summary SO SI → Bool) (loc : (Nat × Nat) ⊕ Nat)
    (nt : Target) (nsum : Summary SO SI) :
    ∀ (a : SummSt SO SI) (x : Summary SO SI),
      (candStep po pin le loc nt nsum (a, true) x).2 = true →
      (candStep po pin le loc nt nsum (a, true) x).1 = a ∧
        (try_to_add_summary le (getVec a loc) nt
          (Summary.followed_by po pin nsum x)).2 = false :=
  fun a x h => applyCandidate_true le a loc nt (Summary.followed_by po pin nsum x) h

theorem entryStep_mono {TO TI SO SI : Type} (po : PathOps TO SO) (pin : PathOps TI SI)
    (le : Summary SO SI → Summary SO SI → Bool) (loc : (Nat × Nat) ⊕ Nat)
    (nsum : Summary SO SI) :
    ∀ (a : SummSt SO SI) (d : Bool) (entry : Target × Antichain (Summary SO SI)),
      (entryStep po pin le loc nsum (a, d) entry).2 = true → d = true := by
  intro a d entry h
  unfold entryStep at h
  exact foldl_done_mono _ (candStep_mono po pin le loc entry.1 nsum) _ a d h

theorem entryStep_true {TO TI SO SI : Type} (po : PathOps TO SO) (pin : PathOps TI SI)
    (le : Summary SO SI → Summary SO SI → Bool) (loc : (Nat × Nat) ⊕ Nat)
    (nsum : Summary SO SI) :
    ∀ (a : SummSt SO SI) (entry : Target × Antichain (Summary SO SI)),
      (entryStep po pin le loc nsum (a, true) entry).2 = true →
      (entryStep po pin le loc nsum (a, true) entry).1 = a ∧
      (∀ x ∈ entry.2.elements,
        (try_to_add_summary le (getVec a loc) entry.1
          (Summary.followed_by po pin nsum x)).2 = false) := by
  intro a entry h
  unfold entryStep at h ⊢
  obtain ⟨h1, _, h3⟩ := foldl_done_true _
    (fun x a => (try_to_add_summary le (getVec a loc) entry.1
      (Summary.followed_by po pin nsum x)).2 = false)
    (candStep_mono po pin le loc entry.1 nsum)
    (candStep_true po pin le loc entry.1 nsum)
    entry.2.elements a true h
  exact ⟨h1, h3⟩

theorem nsStep_mono {TO TI SO SI : Type} (po : PathOps TO SO) (pin : PathOps TI SI)
    (le : Summary SO SI → Summary SO SI → Bool) (loc : (Nat × Nat) ⊕ Nat) :
    ∀ (a : SummSt SO SI) (d : Bool) (ns : Source × Summary SO SI),
      (nsStep po pin le loc (a, d) ns).2 = true → d = true := by
  intro a d ns h
  rcases ns with ⟨src, nsum⟩
  cases src with
  | ScopeOutput nscope noutput =>
      unfold nsStep at h
      exact foldl_done_mono _ (entryStep_mono po pin le loc nsum) _ a d h
  | GraphInput i =>
      unfold nsStep at h
      exact h

theorem nsStep_true {TO TI SO SI : Type} (po : PathOps TO SO) (pin : PathOps TI SI)
    (le : Summary SO SI → Summary SO SI → Bool) (loc : (Nat × Nat) ⊕ Nat) :
    ∀ (a : SummSt SO SI) (ns : Source × Summary SO SI),
      (nsStep po pin le loc (a, true) ns).2 = true →
      (nsStep po pin le loc (a, true) ns).1 = a ∧
      (∀ next_scope next_output, ns.1 = Source.ScopeOutput next_scope next_output →
        ∀ entry ∈ get2 a.source_summaries next_scope next_output [],
          ∀ x ∈ entry.2.elements,
            (try_to_add_summary le (getVec a loc) entry.1
              (Summary.followed_by po pin ns.2 x)).2 = false) := by
  intro a ns h
  rcases ns with ⟨src, nsum⟩
  cases src with
  | ScopeOutput nscope noutput =>
      unfold nsStep at h ⊢
      obtain ⟨h1, _, h3⟩ := foldl_done_true _
        (fun entry a => ∀ x ∈ entry.2.elements,
          (try_to_add_summary le (getVec a loc) entry.1
            (Summary.followed_by po pin nsum x)).2 = false)
        (entryStep_mono po pin le loc nsum)
        (entryStep_true po pin le loc nsum)
        (get2 a.source_summaries nscope noutput []) a true h
      refine ⟨h1, ?_⟩
      intro ns2 no2 hEq
      injection hEq with e1 e2
      subst e1
      subst e2
      exact h3
  | GraphInput i =>
      refine ⟨rfl, ?_⟩
      intro ns2 no2 hEq
      exact Source.noConfusion hEq

theorem targetStep_mono {TO TI SO SI : Type} (po : PathOps TO SO) (pin : PathOps TI SI)
    (le : Summary SO SI → Summary SO SI → Bool) (s : SubgraphSt TO TI SO SI)
    (loc : (Nat × Nat) ⊕ Nat) :
    ∀ (a : SummSt SO SI) (d : Bool) (target : Target),
      (targetStep po pin le s loc (a, d) target).2 = true → d = true := by
  intro a d target h
  unfold targetStep at h
  exact foldl_done_mono _ (nsStep_mono po pin le loc) _ a d h

theorem targetStep_true {TO TI SO SI : Type} (po : PathOps TO SO) (pin : PathOps TI SI)
    (le : Summary SO SI → Summary SO SI → Bool) (s : SubgraphSt TO TI SO SI)
    (loc : (Nat × Nat) ⊕ Nat) :
    ∀ (a : SummSt SO SI) (target : Target),
      (targetStep po pin le s loc (a, true) target).2 = true →
      (targetStep po pin le s loc (a, true) target).1 = a ∧
      (∀ ns ∈ Subgraph.target_to_sources pin s target,
        ∀ next_scope next_output, ns.1 = Source.ScopeOutput next_scope next_output →
          ∀ entry ∈ get2 a.source_summaries next_scope next_output [],
            ∀ x ∈ entry.2.elements,
              (try_to_add_summary le (getVec a loc) entry.1
                (Summary.followed_by po pin ns.2 x)).2 = false) := by
  intro a target h
  unfold targetStep at h ⊢
  obtain ⟨h1, _, h3⟩ := foldl_done_true _
    (fun ns a => ∀ next_scope next_output,
      ns.1 = Source.ScopeOutput next_scope next_output →
      ∀ entry ∈ get2 a.source_summaries next_scope next_output [],
        ∀ x ∈ entry.2.elements,
          (try_to_add_summary le (getVec a loc) entry.1
            (Summary.followed_by po pin ns.2 x)).2 = false)
    (nsStep_mono po pin le loc)
    (nsStep_true po pin le loc)
    (Subgraph.target_to_sources pin s target) a true h
  exact ⟨h1, h3⟩

theorem outputStep_mono {TO TI SO SI : Type} (po : PathOps TO SO) (pin : PathOps TI SI)
    (le : Summary SO SI → Summary SO SI → Bool) (s : SubgraphSt TO TI SO SI)
    (scope : Nat) :
    ∀ (a : SummSt SO SI) (d : Bool) (output : Nat),
      (outputStep po pin le s scope (a, d) output).2 = true → d = true := by
  intro a d output h
  unfold outputStep at h
  exact foldl_done_mono _ (targetStep_mono po pin le s (Sum.inl (scope, output))) _ a d h

theorem outputStep_true {TO TI SO SI : Type} (po : PathOps TO SO) (pin : PathOps TI SI)
    (le : Summary SO SI → Summary SO SI → Bool) (s : SubgraphSt TO TI SO SI)
    (scope : Nat) :
    ∀ (a : SummSt SO SI) (output : Nat),
      (outputStep po pin le s scope (a, true) output).2 = true →
      (outputStep po pin le s scope (a, true) output).1 = a ∧
      (∀ target ∈ (s.children.getD scope dummyWrapper).edges.getD output [],
        ∀ ns ∈ Subgraph.target_to_sources pin s target,
          ∀ next_scope next_output, ns.1 = Source.ScopeOutput next_scope next_output →
            ∀ entry ∈ get2 a.source_summaries next_scope next_output [],
              ∀ x ∈ entry.2.elements,
                (try_to_add_summary le (getVec a (Sum.inl (scope, output))) entry.1
                  (Summary.followed_by po pin ns.2 x)).2 = false) := by
  intro a output h
  unfold outputStep at h ⊢
  obtain ⟨h1, _, h3⟩ := foldl_done_true _
    (fun target a => ∀ ns ∈ Subgraph.target_to_sources pin s target,
      ∀ next_scope next_output, ns.1 = Source.ScopeOutput next_scope next_output →
        ∀ entry ∈ get2 a.source_summaries next_scope next_output [],
          ∀ x ∈ entry.2.elements,
            (try_to_add_summary le (getVec a (Sum.inl (scope, output))) entry.1
              (Summary.followed_by po pin ns.2 x)).2 = false)
    (targetStep_mono po pin le s (Sum.inl (scope, output)))
    (targetStep_true po pin le s (Sum.inl (scope, output)))
    ((s.children.getD scope dummyWrapper).edges.getD output []) a true h
  exact ⟨h1, h3⟩

theorem scopeStep_mono {TO TI SO SI : Type} (po : PathOps TO SO) (pin : PathOps TI SI)
    (le : Summary SO SI → Summary SO SI → Bool) (s : SubgraphSt TO TI SO SI) :
    ∀ (a : SummSt SO SI) (d : Bool) (scope : Nat),
      (scopeStep po pin le s (a, d) scope).2 = true → d = true := by
  intro a d scope h
  unfold scopeStep at h
  exact foldl_done_mono _ (outputStep_mono po pin le s scope) _ a d h

theorem scopeStep_true {TO TI SO SI : Type} (po : PathOps TO SO) (pin : PathOps TI SI)
    (le : Summary SO SI → Summary SO SI → Bool) (s : SubgraphSt TO TI SO SI) :
    ∀ (a : SummSt SO SI) (scope : Nat),
      (scopeStep po pin le s (a, true) scope).2 = true →
      (scopeStep po pin le s (a, true) scope).1 = a ∧
      (∀ output, output < (s.children.getD scope dummyWrapper).outputs →
        ∀ target ∈ (s.children.getD scope dummyWrapper).edges.getD output [],
          ∀ ns ∈ Subgraph.target_to_sources pin s target,
            ∀ next_scope next_output, ns.1 = Source.ScopeOutput next_scope next_output →
              ∀ entry ∈ get2 a.source_summaries next_scope next_output [],
                ∀ x ∈ entry.2.elements,
                  (try_to_add_summary le (getVec a (Sum.inl (scope, output))) entry.1
                    (Summary.followed_by po pin ns.2 x)).2 = false) := by
  intro a scope h
  unfold scopeStep at h ⊢
  obtain ⟨h1, _, h3⟩ := foldl_done_true _
    (fun output a => ∀ target ∈ (s.children.getD scope dummyWrapper).edges.getD output [],
      ∀ ns ∈ Subgraph.target_to_sources pin s target,
        ∀ next_scope next_output, ns.1 = Source.ScopeOutput next_scope next_output →
          ∀ entry ∈ get2 a.source_summaries next_scope next_output [],
            ∀ x ∈ entry.2.elements,
              (try_to_add_summary le (getVec a (Sum.inl (scope, output))) entry.1
                (Summary.followed_by po pin ns.2 x)).2 = false)
    (outputStep_mono po pin le s scope)
    (outputStep_true po pin le s scope)
    (List.range ((s.children.getD scope dummyWrapper).outputs)) a true h
  refine ⟨h1, ?_⟩
  intro output hout
  exact h3 output (List.mem_range.mpr hout)

theorem inputStep_mono {TO TI SO SI : Type} (po : PathOps TO SO) (pin : PathOps TI SI)
    (le : Summary SO SI → Summary SO SI → Bool) (s : SubgraphSt TO TI SO SI) :
    ∀ (a : SummSt SO SI) (d : Bool) (input : Nat),
      (inputStep po pin le s (a, d) input).2 = true → d = true := by
  intro a d input h
  unfold inputStep at h
  exact foldl_done_mono _ (targetStep_mono po pin le s (Sum.inr input)) _ a d h

theorem inputStep_true {TO TI SO SI : Type} (po : PathOps TO SO) (pin : PathOps TI SI)
    (le : Summary SO SI → Summary SO SI → Bool) (s : SubgraphSt TO TI SO SI) :
    ∀ (a : SummSt SO SI) (input : Nat),
      (inputStep po pin le s (a, true) input).2 = true →
      (inputStep po pin le s (a, true) input).1 = a ∧
      (∀ target ∈ s.input_edges.getD input [],
        ∀ ns ∈ Subgraph.target_to_sources pin s target,
          ∀ next_scope next_output, ns.1 = Source.ScopeOutput next_scope next_output →
            ∀ entry ∈ get2 a.source_summaries next_scope next_output [],
              ∀ x ∈ entry.2.elements,
                (try_to_add_summary le (getVec a (Sum.inr input)) entry.1
                  (Summary.followed_by po pin ns.2 x)).2 = false) := by
  intro a input h
  unfold inputStep at h ⊢
  obtain ⟨h1, _, h3⟩ := foldl_done_true _
    (fun target a => ∀ ns ∈ Subgraph.target_to_sources pin s target,
      ∀ next_scope next_output, ns.1 = Source.ScopeOutput next_scope next_output →
        ∀ entry ∈ get2 a.source_summaries next_scope next_output [],
          ∀ x ∈ entry.2.elements,
            (try_to_add_summary le (getVec a (Sum.inr input)) entry.1
              (Summary.followed_by po pin ns.2 x)).2 = false)
    (targetStep_mono po pin le s (Sum.inr input))
    (targetStep_true po pin le s (Sum.inr input))
    (s.input_edges.getD input []) a true h
  exact ⟨h1, h3⟩

theorem passSources_done {TO TI SO SI : Type} (po : PathOps TO SO) (pin : PathOps TI SI)
    (le : Summary SO SI → Summary SO SI → Bool) (s : SubgraphSt TO TI SO SI)
    (st : SummSt SO SI) (d : Bool)
    (h : (passSources po pin le s (st, d)).2 = true) :
    (passSources po pin le s (st, d)).1 = st ∧ d = true ∧
    (∀ scope, scope < s.children.length →
      ∀ output, output < (s.children.getD scope dummyWrapper).outputs →
        ∀ target ∈ (s.children.getD scope dummyWrapper).edges.getD output [],
          ∀ ns ∈ Subgraph.target_to_sources pin s target,
            ∀ next_scope next_output, ns.1 = Source.ScopeOutput next_scope next_output →
              ∀ entry ∈ get2 st.source_summaries next_scope next_output [],
                ∀ x ∈ entry.2.elements,
                  (try_to_add_summary le (getVec st (Sum.inl (scope, output))) entry.1
                    (Summary.followed_by po pin ns.2 x)).2 = false) := by
  unfold passSources at h ⊢
  obtain ⟨h1, h2, h3⟩ := foldl_done_true _
    (fun scope a => ∀ output, output < (s.children.getD scope dummyWrapper).outputs →
      ∀ target ∈ (s.children.getD scope dummyWrapper).edges.getD output [],
        ∀ ns ∈ Subgraph.target_to_sources pin s target,
          ∀ next_scope next_output, ns.1 = Source.ScopeOutput next_scope next_output →
            ∀ entry ∈ get2 a.source_summaries next_scope next_output [],
              ∀ x ∈ entry.2.elements,
                (try_to_add_summary le (getVec a (Sum.inl (scope, output))) entry.1
                  (Summary.followed_by po pin ns.2 x)).2 = false)
    (scopeStep_mono po pin le s)
    (fun a scope hs => (fun pr => ⟨pr.1, pr.2⟩) (scopeStep_true po pin le s a scope hs))
    (List.range s.children.length) st d h
  refine ⟨h1, h2, ?_⟩
  intro scope hscope
  exact h3 scope (List.mem_range.mpr hscope)

theorem passInputs_done {TO TI SO SI : Type} (po : PathOps TO SO) (pin : PathOps TI SI)
    (le : Summary SO SI → Summary SO SI → Bool) (s : SubgraphSt TO TI SO SI)
    (st : SummSt SO SI) (d : Bool)
    (h : (passInputs po pin le s (st, d)).2 = true) :
    (passInputs po pin le s (st, d)).1 = st ∧ d = true ∧
    (∀ input, input < s.inputs →
      ∀ target ∈ s.input_edges.getD input [],
        ∀ ns ∈ Subgraph.target_to_sources pin s target,
          ∀ next_scope next_output, ns.1 = Source.ScopeOutput next_scope next_output →
            ∀ entry ∈ get2 st.source_summaries next_scope next_output [],
              ∀ x ∈ entry.2.elements,
                (try_to_add_summary le (getVec st (Sum.inr input)) entry.1
                  (Summary.followed_by po pin ns.2 x)).2 = false) := by
  unfold passInputs at h ⊢
  obtain ⟨h1, h2, h3⟩ := foldl_done_true _
    (fun input a => ∀ target ∈ s.input_edges.getD input [],
      ∀ ns ∈ Subgraph.target_to_sources pin s target,
        ∀ next_scope next_output, ns.1 = Source.ScopeOutput next_scope next_output →
          ∀ entry ∈ get2 a.source_summaries next_scope next_output [],
            ∀ x ∈ entry.2.elements,
              (try_to_add_summary le (getVec a (Sum.inr input)) entry.1
                (Summary.followed_by po pin ns.2 x)).2 = false)
    (inputStep_mono po pin le s)
    (inputStep_true po pin le s)
    (List.range s.inputs) st d h
  refine ⟨h1, h2, ?_⟩
  intro input hinput
  exact h3 input (List.mem_range.mpr hinput)

theorem passStep_done {TO TI SO SI : Type} (po : PathOps TO SO) (pin : PathOps TI SI)
    (le : Summary SO SI → Summary SO SI → Bool) (s : SubgraphSt TO TI SO SI)
    (st : SummSt SO SI)
    (h : (passStep po pin le s st).2 = true) :
    (passStep po pin le s st).1 = st ∧
    (∀ scope, scope < s.children.length →
      ∀ output, output < (s.children.getD scope dummyWrapper).outputs →
        ∀ target ∈ (s.children.getD scope dummyWrapper).edges.getD output [],
          ∀ ns ∈ Subgraph.target_to_sources pin s target,
            ∀ next_scope next_output, ns.1 = Source.ScopeOutput next_scope next_output →
              ∀ entry ∈ get2 st.source_summaries next_scope next_output [],
                ∀ x ∈ entry.2.elements,
                  (try_to_add_summary le (getVec st (Sum.inl (scope, output))) entry.1
                    (Summary.followed_by po pin ns.2 x)).2 = false) ∧
    (∀ input, input < s.inputs →
      ∀ target ∈ s.input_edges.getD input [],
        ∀ ns ∈ Subgraph.target_to_sources pin s target,
          ∀ next_scope next_output, ns.1 = Source.ScopeOutput next_scope next_output →
            ∀ entry ∈ get2 st.source_summaries next_scope next_output [],
              ∀ x ∈ entry.2.elements,
                (try_to_add_summary le (getVec st (Sum.inr input)) entry.1
                  (Summary.followed_by po pin ns.2 x)).2 = false) := by
  unfold passStep at h ⊢
  have hpair : passSources po pin le s (st, true)
      = ((passSources po pin le s (st, true)).1,
         (passSources po pin le s (st, true)).2) := rfl
  rw [hpair] at h ⊢
  obtain ⟨hi1, hi2, hiQ⟩ := passInputs_done po pin le s
    (passSources po pin le s (st, true)).1 (passSources po pin le s (st, true)).2 h
  obtain ⟨hs1, _, hsQ⟩ := passSources_done po pin le s st true hi2
  rw [hi2, hs1] at hi1
  rw [hs1] at hiQ
  rw [hi2, hs1]
  exact ⟨hi1, hsQ, hiQ⟩

theorem summLoop_done {TO TI SO SI : Type} (po : PathOps TO SO) (pin : PathOps TI SI)
    (le : Summary SO SI → Summary SO SI → Bool) (s : SubgraphSt TO TI SO SI) :
    ∀ (fuel : Nat) (st st' : SummSt SO SI),
      summLoop po pin le s fuel st = some st' →
      ∃ st0, passStep po pin le s st0 = (st', true) := by
  intro fuel
  induction fuel with
  | zero =>
      intro st st' h
      exact absurd h (by simp [summLoop])
  | succ fuel ih =>
      intro st st' h
      unfold summLoop at h
      by_cases hd : (passStep po pin le s st).2 = true
      · rw [if_pos hd] at h
        injection h with h
        refine ⟨st, ?_⟩
        have hp : passStep po pin le s st
            = ((passStep po pin le s st).1, (passStep po pin le s st).2) := rfl
        rw [hp, h, hd]
      · rw [if_neg hd] at h
        exact ih _ _ h

/-- C2: whenever set_summaries returns (the fixpoint loop converged), the
resulting source_summaries and input_summaries are one-hop closed: every
candidate obtained by expanding an edge target through target_to_sources and
composing one further followed_by step with a reachable entry of the reached
source is already dominated, so inserting it via try_to_add_summary would
return false; the same holds for input_summaries from every graph input. -/
theorem c2_set_summaries_fixpoint (TO TI SO SI : Type)
    (po : PathOps TO SO) (pin : PathOps TI SI)
    (le : Summary SO SI → Summary SO SI → Bool) (fuel : Nat)
    (s sr : SubgraphSt TO TI SO SI)
    (hss : Subgraph.set_summaries po pin le fuel s = some sr) :
    OneHopClosedSources po pin le sr ∧ OneHopClosedInputs po pin le sr := by
  unfold Subgraph.set_summaries at hss
  cases hloop : summLoop po pin le s fuel (summInit s) with
  | none =>
      rw [hloop] at hss
      exact absurd hss (by simp)
  | some st =>
      rw [hloop] at hss
      simp at hss
      obtain ⟨st0, hpass⟩ := summLoop_done po pin le s fuel (summInit s) st hloop
      have hdone : (passStep po pin le s st0).2 = true := by rw [hpass]
      obtain ⟨hst, hQs, hQi⟩ := passStep_done po pin le s st0 hdone
      have hst0 : st = st0 := by
        rw [hpass] at hst
        exact hst
      subst hst0
      subst hss
      constructor
      · intro scope hscope output houtput target htarget ns hns nsc nso hEq entry hentry x hx
        exact hQs scope hscope output houtput target htarget ns hns nsc nso hEq entry hentry x hx
      · intro input hinput target htarget ns hns nsc nso hEq entry hentry x hx
        exact hQi input hinput target htarget ns hns nsc nso hEq entry hentry x hx

/-- Witness for C2: set_summaries converges on a one-child self-loop subgraph
and the resulting tables are one-hop closed. -/
theorem c2_set_summaries_fixpoint_witness :
    Subgraph.set_summaries natOps natOps leNatSummary 1 c2StateW = some c2ResultW ∧
    (OneHopClosedSources natOps natOps leNatSummary c2ResultW ∧
     OneHopClosedInputs natOps natOps leNatSummary c2ResultW) :=
  ⟨by decide,
   c2_set_summaries_fixpoint Nat Nat Nat Nat natOps natOps leNatSummary 1
     c2StateW c2ResultW (by decide)⟩

/-- A cons is accessible for ListStep when its head is accessible for R and
its tail is accessible for ListStep. -/
theorem listStep_acc_cons {A : Type} {R : A → A → Prop} :
    ∀ (a : A), Acc R a → ∀ (l : List A), Acc (ListStep R) l → Acc (ListStep R) (a :: l) := by
  intro a ha
  induction ha with
  | intro a hacca iha =>
      intro l hl
      induction hl with
      | intro l haccl ihl =>
          constructor
          intro y hy
          cases hy with
          | head h => exact iha _ h _ (Acc.intro l haccl)
          | tail h => exact ihl _ h

/-- ListStep is well-founded on lists over a well-founded relation: lists are
finite, so only finitely many single-element steps are possible. -/
theorem listStep_acc {A : Type} {R : A → A → Prop} (hwf : WellFounded R) :
    ∀ (l : List A), Acc (ListStep R) l := by
  intro l
  induction l with
  | nil =>
      constructor
      intro y hy
      cases hy
  | cons a l ih => exact listStep_acc_cons a (hwf.apply a) l ih

/-- ListStep lifts through a left append of unchanged elements. -/
theorem listStep_append_right {A : Type} {R : A → A → Prop} (l₁ : List A) :
    ∀ {l₂' l₂ : List A}, ListStep R l₂' l₂ → ListStep R (l₁ ++ l₂') (l₁ ++ l₂) := by
  induction l₁ with
  | nil => intro _ _ h; exact h
  | cons a l ih => intro _ _ h; exact ListStep.tail (ih h)

/-- ListStep lifts through a right append of unchanged elements. -/
theorem listStep_append_left {A : Type} {R : A → A → Prop} {l₁' l₁ : List A} (l₂ : List A)
    (h : ListStep R l₁' l₁) : ListStep R (l₁' ++ l₂) (l₁ ++ l₂) := by
  induction h with
  | head hr => exact ListStep.head hr
  | tail _ ih => exact ListStep.tail ih

/-- Exchanging one in-bounds cell under a mapped sum: the sum changes by
exactly the difference at that cell. -/
theorem sum_map_listUpd {A : Type} (g : A → Nat) (f : A → A) (d : A) :
    ∀ (l : List A) (i : Nat), i < l.length →
      ((listUpd l i f).map g).sum + g (l.getD i d) = (l.map g).sum + g (f (l.getD i d)) := by
  intro l
  induction l with
  | nil => intro i h; simp at h
  | cons a l ih =>
      intro i h
      cases i with
      | zero =>
          simp [listUpd]
          omega
      | succ n =>
          have hn : n < l.length := by simpa using h
          have := ih n hn
          simp only [listUpd, List.map_cons, List.sum_cons, List.getD_cons_succ]
          omega

/-- In-bounds listUpd decomposes as take/modified cell/drop, and so does the
original list. -/
theorem listUpd_decomp {A : Type} :
    ∀ (l : List A) (i : Nat) (f : A → A) (d : A), i < l.length →
      listUpd l i f = l.take i ++ [f (l.getD i d)] ++ l.drop (i + 1) ∧
      l = l.take i ++ [l.getD i d] ++ l.drop (i + 1) := by
  intro l
  induction l with
  | nil => intro i f d h; simp at h
  | cons a l ih =>
      intro i f d h
      cases i with
      | zero => simp [listUpd]
      | succ n =>
          have hn : n < l.length := by simpa using h
          obtain ⟨h1, h2⟩ := ih n f d hn
          constructor
          · simp only [listUpd, List.take_succ_cons, List.getD_cons_succ,
              List.drop_succ_cons, List.cons_append, List.cons.injEq, true_and]
            exact h1
          · conv_lhs => rw [h2]
            simp

/-- A ListStep at one in-bounds cell's image lifts through flatMap. -/
theorem listStep_flatMap {A B : Type} {R : B → B → Prop} (g : A → List B) (f : A → A) (d : A)
    (l : List A) (i : Nat) (h : i < l.length)
    (hstep : ListStep R (g (f (l.getD i d))) (g (l.getD i d))) :
    ListStep R ((listUpd l i f).flatMap g) (l.flatMap g) := by
  obtain ⟨h1, h2⟩ := listUpd_decomp l i f d h
  rw [h1]
  conv_rhs => rw [h2]
  simp only [List.flatMap_append, List.flatMap_cons, List.flatMap_nil, List.append_nil]
  exact listStep_append_left _ (listStep_append_right _ hstep)

/-- Membership in a flatMap over a listUpd comes from the original flatMap or
from the modified cell's image. -/
theorem mem_flatMap_listUpd {A B : Type} (g : A → List B) (f : A → A) (d : A) :
    ∀ (l : List A) (i : Nat) (x : B), x ∈ (listUpd l i f).flatMap g →
      x ∈ l.flatMap g ∨ x ∈ g (f (l.getD i d)) := by
  intro l
  induction l with
  | nil => intro i x hx; simp [listUpd] at hx
  | cons a l ih =>
      intro i x hx
      cases i with
      | zero =>
          simp only [listUpd, List.flatMap_cons, List.mem_append] at hx
          rcases hx with hx | hx
          · exact Or.inr hx
          · exact Or.inl (by simp only [List.flatMap_cons, List.mem_append]; exact Or.inr hx)
      | succ n =>
          simp only [listUpd, List.flatMap_cons, List.mem_append] at hx
          rcases hx with hx | hx
          · exact Or.inl (by simp only [List.flatMap_cons, List.mem_append]; exact Or.inl hx)
          · rcases ih n x hx with hy | hy
            · exact Or.inl (by simp only [List.flatMap_cons, List.mem_append]; exact Or.inr hy)
            · exact Or.inr (by simpa using hy)

/-- The targets of an append. -/
theorem vecTargets_append {S : Type} (v w : List (Target × Antichain S)) :
    vecTargets (v ++ w) = vecTargets v ++ vecTargets w := by
  unfold vecTargets
  exact List.map_append ..

/-- capVec only depends on the targets of the vector. -/
theorem capVec_congr {S : Type} (U : Finset Target) (v' v : List (Target × Antichain S))
    (h : vecTargets v' = vecTargets v) : capVec U v' = capVec U v := by
  unfold capVec
  simp only [h]

/-- Appending a target of U not yet present strictly shrinks the capacity. -/
theorem capVec_append_lt {S : Type} (U : Finset Target) (v : List (Target × Antichain S))
    (t : Target) (x : Antichain S) (htU : t ∈ U) (htv : t ∉ vecTargets v) :
    capVec U (v ++ [(t, x)]) < capVec U v := by
  apply Finset.card_lt_card
  have hsub : U.filter (fun u => u ∉ vecTargets (v ++ [(t, x)])) ⊆
      U.filter (fun u => u ∉ vecTargets v) := by
    intro u hu
    simp only [Finset.mem_filter] at hu ⊢
    refine ⟨hu.1, fun hmem => hu.2 ?_⟩
    rw [vecTargets_append]
    exact List.mem_append_left _ hmem
  refine (Finset.ssubset_iff_of_subset hsub).mpr ⟨t, ?_, ?_⟩
  · simp only [Finset.mem_filter]
    exact ⟨htU, htv⟩
  · simp only [Finset.mem_filter, vecTargets_append]
    intro hc
    exact hc.2 (List.mem_append_right _ (by simp [vecTargets]))

/-- Anatomy of a successful try_to_add_summary: either the target was absent
and a fresh singleton entry was appended, or the matching entry's antichain
took one successful insert and the targets are unchanged. -/
theorem try_to_add_true_anatomy {S : Type} (le : S → S → Bool) :
    ∀ (v : List (Target × Antichain S)) (t : Target) (x : S),
      (try_to_add_summary le v t x).2 = true →
      ((t ∉ vecTargets v ∧
        vecTargets (try_to_add_summary le v t x).1 = vecTargets v ++ [t] ∧
        (try_to_add_summary le v t x).1.map Prod.snd
          = v.map Prod.snd ++ [Antichain.from_elem x]) ∨
       (vecTargets (try_to_add_summary le v t x).1 = vecTargets v ∧
        ListStep (AntichainStep le)
          ((try_to_add_summary le v t x).1.map Prod.snd) (v.map Prod.snd))) := by
  intro v
  induction v with
  | nil =>
      intro t x _
      refine Or.inl ⟨by simp [vecTargets], ?_, ?_⟩
      · simp [vecTargets, try_to_add_summary, Antichain.from_elem]
      · simp [try_to_add_summary]
  | cons e rest ih =>
      intro t x htrue
      obtain ⟨te, ae⟩ := e
      by_cases heq : t = te
      · subst heq
        have hred : try_to_add_summary le ((t, ae) :: rest) t x
            = ((t, (ae.insert le x).1) :: rest, (ae.insert le x).2) := by
          simp [try_to_add_summary]
        rw [hred] at htrue ⊢
        have htrue2 : (ae.insert le x).2 = true := htrue
        refine Or.inr ⟨by simp [vecTargets], ?_⟩
        simp only [List.map_cons]
        refine ListStep.head ⟨x, ?_⟩
        have hpair : ae.insert le x = ((ae.insert le x).1, (ae.insert le x).2) := rfl
        rw [htrue2] at hpair
        exact hpair
      · have hred : try_to_add_summary le ((te, ae) :: rest) t x
            = ((te, ae) :: (try_to_add_summary le rest t x).1,
               (try_to_add_summary le rest t x).2) := by
          simp [try_to_add_summary, heq]
        rw [hred] at htrue ⊢
        have htrue2 : (try_to_add_summary le rest t x).2 = true := htrue
        rcases ih t x htrue2 with ⟨hnm, hvt, hsnd⟩ | ⟨hvt, hls⟩
        · refine Or.inl ⟨?_, ?_, ?_⟩
          · simp only [vecTargets, List.map_cons, List.mem_cons]
            rintro (h | h)
            · exact heq h
            · exact hnm h
          · simp only [vecTargets, List.map_cons] at hvt ⊢
            rw [hvt]
            rfl
          · simp only [List.map_cons] at hsnd ⊢
            rw [hsnd]
            rfl
        · refine Or.inr ⟨?_, ?_⟩
          · simp only [vecTargets, List.map_cons] at hvt ⊢
            rw [hvt]
          · simp only [List.map_cons]
            exact ListStep.tail hls

/-- The source_summaries component of a write at a source location. -/
theorem setVecSrc_inl {SO SI : Type} (st : SummSt SO SI) (p : Nat × Nat)
    (v : List (Target × Antichain (Summary SO SI))) :
    (setVec st (Sum.inl p) v).source_summaries
      = upd2 st.source_summaries p.1 p.2 (fun _ => v) := rfl

/-- The input_summaries component of a write at a source location. -/
theorem setVecInp_inl {SO SI : Type} (st : SummSt SO SI) (p : Nat × Nat)
    (v : List (Target × Antichain (Summary SO SI))) :
    (setVec st (Sum.inl p) v).input_summaries = st.input_summaries := rfl

/-- The source_summaries component of a write at an input location. -/
theorem setVecSrc_inr {SO SI : Type} (st : SummSt SO SI) (input : Nat)
    (v : List (Target × Antichain (Summary SO SI))) :
    (setVec st (Sum.inr input) v).source_summaries = st.source_summaries := rfl

/-- The input_summaries component of a write at an input location. -/
theorem setVecInp_inr {SO SI : Type} (st : SummSt SO SI) (input : Nat)
    (v : List (Target × Antichain (Summary SO SI))) :
    (setVec st (Sum.inr input) v).input_summaries
      = listUpd st.input_summaries input (fun _ => v) := rfl

/-- getD yields a member of the list or the default. -/
theorem getD_mem_or {A : Type} :
    ∀ (l : List A) (i : Nat) (d : A), l.getD i d ∈ l ∨ l.getD i d = d := by
  intro l
  induction l with
  | nil => intro i d; simp
  | cons a l ih =>
      intro i d
      cases i with
      | zero => simp
      | succ n =>
          simp only [List.getD_cons_succ]
          rcases ih n d with h | h
          · exact Or.inl (List.mem_cons_of_mem a h)
          · exact Or.inr h

/-- Writing a vector at an in-bounds source location exchanges exactly that
cell's capacity in the state capacity. -/
theorem capSt_setVec_inl {SO SI : Type} (U : Finset Target) (st : SummSt SO SI)
    (i j : Nat) (v' : List (Target × Antichain (Summary SO SI)))
    (hi : i < st.source_summaries.length)
    (hj : j < (st.source_summaries.getD i []).length) :
    capSt U (setVec st (Sum.inl (i, j)) v') + capVec U (get2 st.source_summaries i j [])
      = capSt U st + capVec U v' := by
  have hout := sum_map_listUpd (fun row => (row.map (fun v => capVec U v)).sum)
      (fun row => listUpd row j (fun _ => v')) [] st.source_summaries i hi
  have hin := sum_map_listUpd (fun v => capVec U v) (fun _ => v') []
      (st.source_summaries.getD i []) j hj
  simp only at hout hin
  unfold capSt get2
  rw [setVecSrc_inl, setVecInp_inl]
  unfold upd2
  simp only
  omega

/-- Writing a vector at an in-bounds input location exchanges exactly that
cell's capacity in the state capacity. -/
theorem capSt_setVec_inr {SO SI : Type} (U : Finset Target) (st : SummSt SO SI)
    (input : Nat) (v' : List (Target × Antichain (Summary SO SI)))
    (hin : input < st.input_summaries.length) :
    capSt U (setVec st (Sum.inr input) v') + capVec U (st.input_summaries.getD input [])
      = capSt U st + capVec U v' := by
  have h := sum_map_listUpd (fun v => capVec U v) (fun _ => v') []
      st.input_summaries input hin
  simp only at h
  unfold capSt
  rw [setVecSrc_inr, setVecInp_inr]
  omega

/-- A ListStep of the written cell's antichains lifts to the flattened state
at an in-bounds source location. -/
theorem flatten_setVec_inl {SO SI : Type} (le : Summary SO SI → Summary SO SI → Bool)
    (st : SummSt SO SI) (i j : Nat) (v' : List (Target × Antichain (Summary SO SI)))
    (hi : i < st.source_summaries.length)
    (hj : j < (st.source_summaries.getD i []).length)
    (hls : ListStep (AntichainStep le) (v'.map Prod.snd)
      ((get2 st.source_summaries i j []).map Prod.snd)) :
    ListStep (AntichainStep le) (flattenSt (setVec st (Sum.inl (i, j)) v')) (flattenSt st) := by
  unfold flattenSt
  rw [setVecSrc_inl, setVecInp_inl]
  unfold upd2
  simp only
  apply listStep_append_left
  apply listStep_flatMap (fun row => row.flatMap (fun v => v.map Prod.snd))
    (fun row => listUpd row j (fun _ => v')) [] st.source_summaries i hi
  apply listStep_flatMap (fun v => v.map Prod.snd) (fun _ => v') []
    (st.source_summaries.getD i []) j hj
  exact hls

/-- A ListStep of the written cell's antichains lifts to the flattened state
at an in-bounds input location. -/
theorem flatten_setVec_inr {SO SI : Type} (le : Summary SO SI → Summary SO SI → Bool)
    (st : SummSt SO SI) (input : Nat) (v' : List (Target × Antichain (Summary SO SI)))
    (hin : input < st.input_summaries.length)
    (hls : ListStep (AntichainStep le) (v'.map Prod.snd)
      ((st.input_summaries.getD input []).map Prod.snd)) :
    ListStep (AntichainStep le) (flattenSt (setVec st (Sum.inr input) v')) (flattenSt st) := by
  unfold flattenSt
  rw [setVecSrc_inr, setVecInp_inr]
  apply listStep_append_right
  apply listStep_flatMap (fun v => v.map Prod.snd) (fun _ => v') []
    st.input_summaries input hin
  exact hls

/-- Every target of the vector read at a location occurs among the state's
targets. -/
theorem vecTargets_getVec_mem {SO SI : Type} (st : SummSt SO SI)
    (loc : (Nat × Nat) ⊕ Nat) (t : Target)
    (ht : t ∈ vecTargets (getVec st loc)) : t ∈ allTargetsSt st := by
  unfold allTargetsSt
  cases loc with
  | inl p =>
      apply List.mem_append_left
      have ht2 : t ∈ vecTargets ((st.source_summaries.getD p.1 []).getD p.2 []) := ht
      rcases getD_mem_or st.source_summaries p.1 [] with hrow | hrow
      · rcases getD_mem_or (st.source_summaries.getD p.1 []) p.2 [] with hcell | hcell
        · exact List.mem_flatMap.mpr ⟨_, hrow, List.mem_flatMap.mpr ⟨_, hcell, ht2⟩⟩
        · rw [hcell] at ht2
          simp [vecTargets] at ht2
      · rw [hrow] at ht2
        simp [vecTargets] at ht2
  | inr input =>
      apply List.mem_append_right
      have ht2 : t ∈ vecTargets (st.input_summaries.getD input []) := ht
      rcases getD_mem_or st.input_summaries input [] with hrow | hrow
      · exact List.mem_flatMap.mpr ⟨_, hrow, ht2⟩
      · rw [hrow] at ht2
        simp [vecTargets] at ht2

/-- Targets of a state after a write come from the written vector or from the
original state. -/
theorem mem_allTargets_setVec {SO SI : Type} (st : SummSt SO SI)
    (loc : (Nat × Nat) ⊕ Nat) (v' : List (Target × Antichain (Summary SO SI)))
    (t : Target) (ht : t ∈ allTargetsSt (setVec st loc v')) :
    t ∈ vecTargets v' ∨ t ∈ allTargetsSt st := by
  unfold allTargetsSt at ht ⊢
  cases loc with
  | inl p =>
      rw [setVecSrc_inl, setVecInp_inl] at ht
      unfold upd2 at ht
      rcases List.mem_append.mp ht with h | h
      · rcases mem_flatMap_listUpd (fun row => row.flatMap vecTargets)
            (fun row => listUpd row p.2 (fun _ => v')) [] st.source_summaries p.1 t h
          with h2 | h2
        · exact Or.inr (List.mem_append_left _ h2)
        · rcases mem_flatMap_listUpd vecTargets (fun _ => v') []
              (st.source_summaries.getD p.1 []) p.2 t h2 with h3 | h3
          · rcases getD_mem_or st.source_summaries p.1 [] with hrow | hrow
            · exact Or.inr (List.mem_append_left _ (List.mem_flatMap.mpr ⟨_, hrow, h3⟩))
            · rw [hrow] at h3
              simp at h3
          · exact Or.inl h3
      · exact Or.inr (List.mem_append_right _ h)
  | inr input =>
      rw [setVecSrc_inr, setVecInp_inr] at ht
      rcases List.mem_append.mp ht with h | h
      · exact Or.inr (List.mem_append_left _ h)
      · rcases mem_flatMap_listUpd vecTargets (fun _ => v') []
            st.input_summaries input t h with h2 | h2
        · exact Or.inr (List.mem_append_right _ h2)
        · exact Or.inl h2

/-- Writing a vector preserves the shape of the state. -/
theorem shape_setVec {TO TI SO SI : Type} (s : SubgraphSt TO TI SO SI)
    (st : SummSt SO SI) (loc : (Nat × Nat) ⊕ Nat)
    (v' : List (Target × Antichain (Summary SO SI)))
    (hs : ShapeSt s st) : ShapeSt s (setVec st loc v') := by
  obtain ⟨h1, h2, h3⟩ := hs
  cases loc with
  | inl p =>
      refine ⟨?_, ?_, ?_⟩
      · rw [setVecSrc_inl]
        unfold upd2
        rw [listUpd_length]
        exact h1
      · intro i hi
        rw [setVecSrc_inl]
        unfold upd2
        by_cases hip : i = p.1
        · subst hip
          by_cases hlt : p.1 < st.source_summaries.length
          · simp only [listUpd_getD_self _ _ _ _ hlt, listUpd_length]
            exact h2 p.1 hi
          · rw [listUpd_oob _ _ _ (Nat.le_of_not_lt hlt)]
            exact h2 p.1 hi
        · rw [listUpd_getD_ne _ _ _ _ _ hip]
          exact h2 i hi
      · rw [setVecInp_inl]
        exact h3
  | inr input =>
      refine ⟨?_, ?_, ?_⟩
      · rw [setVecSrc_inr]
        exact h1
      · intro i hi
        rw [setVecSrc_inr]
        exact h2 i hi
      · rw [setVecInp_inr]
        rw [listUpd_length]
        exact h3

/-- One applyCandidate call at a valid location on a target of U preserves
the invariant, moves along ReflTransGen of StateStep, and clears the done
flag only by taking a real step. -/
theorem applyCandidate_rtg {TO TI SO SI : Type} (s : SubgraphSt TO TI SO SI)
    (le : Summary SO SI → Summary SO SI → Bool) (U : Finset Target)
    (loc : (Nat × Nat) ⊕ Nat) (nt : Target) (cand : Summary SO SI)
    (hnt : nt ∈ U) (hloc : LocOK s loc)
    (a : SummSt SO SI) (d : Bool) (hInv : InvSt s U a) :
    StepOK s le U (applyCandidate le a loc nt cand d) a d := by
  obtain ⟨hShape, hSub⟩ := hInv
  by_cases hsucc : (try_to_add_summary le (getVec a loc) nt cand).2 = true
  · have hInv2 : InvSt s U (setVec a loc (try_to_add_summary le (getVec a loc) nt cand).1) := by
      refine ⟨shape_setVec s a loc _ hShape, ?_⟩
      intro t ht
      rcases mem_allTargets_setVec a loc _ t ht with h | h
      · rcases try_to_add_true_anatomy le (getVec a loc) nt cand hsucc with
          ⟨_, hvt, _⟩ | ⟨hvt, _⟩
        · rw [hvt] at h
          rcases List.mem_append.mp h with h2 | h2
          · exact hSub t (vecTargets_getVec_mem a loc t h2)
          · have h3 : t = nt := by simpa using h2
            rw [h3]
            exact hnt
        · rw [hvt] at h
          exact hSub t (vecTargets_getVec_mem a loc t h)
      · exact hSub t h
    have hstep : StateStep le U
        (setVec a loc (try_to_add_summary le (getVec a loc) nt cand).1) a := by
      rcases loc with p | input
      · obtain ⟨i, j⟩ := p
        obtain ⟨hp1, hp2⟩ := hloc
        have hi : i < a.source_summaries.length := by
          rw [hShape.1]
          exact hp1
        have hj : j < (a.source_summaries.getD i []).length := by
          rw [hShape.2.1 i hp1]
          exact hp2
        have hcap := capSt_setVec_inl U a i j
          (try_to_add_summary le (getVec a (Sum.inl (i, j))) nt cand).1 hi hj
        rcases try_to_add_true_anatomy le (getVec a (Sum.inl (i, j))) nt cand hsucc with
          ⟨hnm, hvt, _⟩ | ⟨hvt, hls⟩
        · left
          have hlt := capVec_append_lt U (getVec a (Sum.inl (i, j))) nt
            (Antichain.from_elem cand) hnt hnm
          have hcongr : capVec U (try_to_add_summary le (getVec a (Sum.inl (i, j))) nt cand).1
              = capVec U (getVec a (Sum.inl (i, j)) ++ [(nt, Antichain.from_elem cand)]) := by
            apply capVec_congr
            rw [hvt, vecTargets_append]
            simp [vecTargets]
          have hgv : capVec U (getVec a (Sum.inl (i, j)))
              = capVec U (get2 a.source_summaries i j []) := rfl
          omega
        · right
          have hcv : capVec U (try_to_add_summary le (getVec a (Sum.inl (i, j))) nt cand).1
              = capVec U (getVec a (Sum.inl (i, j))) := capVec_congr U _ _ hvt
          have hgv : capVec U (getVec a (Sum.inl (i, j)))
              = capVec U (get2 a.source_summaries i j []) := rfl
          refine ⟨by omega, ?_⟩
          exact flatten_setVec_inl le a i j _ hi hj hls
      · have hin : input < a.input_summaries.length := by
          rw [hShape.2.2]
          exact hloc
        have hcap := capSt_setVec_inr U a input
          (try_to_add_summary le (getVec a (Sum.inr input)) nt cand).1 hin
        rcases try_to_add_true_anatomy le (getVec a (Sum.inr input)) nt cand hsucc with
          ⟨hnm, hvt, _⟩ | ⟨hvt, hls⟩
        · left
          have hlt := capVec_append_lt U (getVec a (Sum.inr input)) nt
            (Antichain.from_elem cand) hnt hnm
          have hcongr : capVec U (try_to_add_summary le (getVec a (Sum.inr input)) nt cand).1
              = capVec U (getVec a (Sum.inr input) ++ [(nt, Antichain.from_elem cand)]) := by
            apply capVec_congr
            rw [hvt, vecTargets_append]
            simp [vecTargets]
          have hgv : capVec U (getVec a (Sum.inr input))
              = capVec U (a.input_summaries.getD input []) := rfl
          omega
        · right
          have hcv : capVec U (try_to_add_summary le (getVec a (Sum.inr input)) nt cand).1
              = capVec U (getVec a (Sum.inr input)) := capVec_congr U _ _ hvt
          have hgv : capVec U (getVec a (Sum.inr input))
              = capVec U (a.input_summaries.getD input []) := rfl
          refine ⟨by omega, ?_⟩
          exact flatten_setVec_inr le a input _ hin hls
    exact ⟨hInv2, Relation.ReflTransGen.single hstep,
      fun _ => Or.inr (Relation.TransGen.single hstep)⟩
  · have hfail : (try_to_add_summary le (getVec a loc) nt cand).2 = false := by
      cases hb : (try_to_add_summary le (getVec a loc) nt cand).2
      · rfl
      · exact absurd hb hsucc
    have heq : (applyCandidate le a loc nt cand d).1 = a := by
      show setVec a loc (try_to_add_summary le (getVec a loc) nt cand).1 = a
      rw [try_to_add_false_eq le _ _ _ hfail]
      exact setVec_getVec a loc
    have hflag : (applyCandidate le a loc nt cand d).2 = d := by
      show (d && !(try_to_add_summary le (getVec a loc) nt cand).2) = d
      rw [hfail]
      simp
    refine ⟨?_, ?_, ?_⟩
    · rw [heq]
      exact ⟨hShape, hSub⟩
    · rw [heq]
    · intro hdf
      rw [hflag] at hdf
      exact Or.inl hdf

/-- Folding a step that satisfies StepOK pointwise satisfies StepOK. -/
theorem foldl_rtg {σ α : Type} (R : σ → σ → Prop) (Inv : σ → Prop)
    (g : σ × Bool → α → σ × Bool) :
    ∀ (xs : List α),
      (∀ x ∈ xs, ∀ (a : σ) (d : Bool), Inv a →
        Inv (g (a, d) x).1 ∧ Relation.ReflTransGen R (g (a, d) x).1 a ∧
        ((g (a, d) x).2 = false → d = false ∨ Relation.TransGen R (g (a, d) x).1 a)) →
      ∀ (a : σ) (d : Bool), Inv a →
        Inv (xs.foldl g (a, d)).1 ∧ Relation.ReflTransGen R (xs.foldl g (a, d)).1 a ∧
        ((xs.foldl g (a, d)).2 = false → d = false ∨
          Relation.TransGen R (xs.foldl g (a, d)).1 a) := by
  intro xs
  induction xs with
  | nil =>
      intro _ a d h
      exact ⟨h, Relation.ReflTransGen.refl, fun hf => Or.inl hf⟩
  | cons x xs ih =>
      intro hg a d hInv
      obtain ⟨g1, g2, g3⟩ := hg x (List.mem_cons_self ..) a d hInv
      obtain ⟨i1, i2, i3⟩ := ih (fun y hy => hg y (List.mem_cons_of_mem x hy))
        (g (a, d) x).1 (g (a, d) x).2 g1
      refine ⟨i1, i2.trans g2, ?_⟩
      intro hf
      rcases i3 hf with h | h
      · rcases g3 h with h2 | h2
        · exact Or.inl h2
        · exact Or.inr (Relation.TransGen.trans_right i2 h2)
      · exact Or.inr (Relation.TransGen.trans_left h g2)

/-- One candidate step of the fixpoint loop satisfies StepOK. -/
theorem candStep_rtg {TO TI SO SI : Type} (po : PathOps TO SO) (pin : PathOps TI SI)
    (le : Summary SO SI → Summary SO SI → Bool) (s : SubgraphSt TO TI SO SI)
    (U : Finset Target) (loc : (Nat × Nat) ⊕ Nat) (nt : Target) (nsum : Summary SO SI)
    (hnt : nt ∈ U) (hloc : LocOK s loc) (x : Summary SO SI)
    (a : SummSt SO SI) (d : Bool) (hInv : InvSt s U a) :
    StepOK s le U (candStep po pin le loc nt nsum (a, d) x) a d :=
  applyCandidate_rtg s le U loc nt (Summary.followed_by po pin nsum x) hnt hloc a d hInv

/-- One reachable-entry step of the fixpoint loop satisfies StepOK. -/
theorem entryStep_rtg {TO TI SO SI : Type} (po : PathOps TO SO) (pin : PathOps TI SI)
    (le : Summary SO SI → Summary SO SI → Bool) (s : SubgraphSt TO TI SO SI)
    (U : Finset Target) (loc : (Nat × Nat) ⊕ Nat) (nsum : Summary SO SI)
    (hloc : LocOK s loc) (entry : Target × Antichain (Summary SO SI))
    (hnt : entry.1 ∈ U)
    (a : SummSt SO SI) (d : Bool) (hInv : InvSt s U a) :
    StepOK s le U (entryStep po pin le loc nsum (a, d) entry) a d :=
  foldl_rtg (StateStep le U) (InvSt s U) (candStep po pin le loc entry.1 nsum)
    entry.2.elements
    (fun x _ a' d' h => candStep_rtg po pin le s U loc entry.1 nsum hnt hloc x a' d' h)
    a d hInv

/-- One target_to_sources element step of the fixpoint loop satisfies StepOK:
the entries it expands are read from the current state, so their targets lie
in U by the invariant. -/
theorem nsStep_rtg {TO TI SO SI : Type} (po : PathOps TO SO) (pin : PathOps TI SI)
    (le : Summary SO SI → Summary SO SI → Bool) (s : SubgraphSt TO TI SO SI)
    (U : Finset Target) (loc : (Nat × Nat) ⊕ Nat) (hloc : LocOK s loc)
    (ns : Source × Summary SO SI)
    (a : SummSt SO SI) (d : Bool) (hInv : InvSt s U a) :
    StepOK s le U (nsStep po pin le loc (a, d) ns) a d := by
  obtain ⟨src, nsum⟩ := ns
  cases src with
  | GraphInput i =>
      exact ⟨hInv, Relation.ReflTransGen.refl, fun hf => Or.inl hf⟩
  | ScopeOutput nscope noutput =>
      have hmem : ∀ entry ∈ get2 a.source_summaries nscope noutput [], entry.1 ∈ U := by
        intro entry hentry
        refine hInv.2 entry.1 ?_
        refine vecTargets_getVec_mem a (Sum.inl (nscope, noutput)) entry.1 ?_
        show entry.1 ∈ (get2 a.source_summaries nscope noutput []).map Prod.fst
        exact List.mem_map.mpr ⟨entry, hentry, rfl⟩
      exact foldl_rtg (StateStep le U) (InvSt s U) (entryStep po pin le loc nsum)
        (get2 a.source_summaries nscope noutput [])
        (fun entry hentry a' d' h =>
          entryStep_rtg po pin le s U loc nsum hloc entry (hmem entry hentry) a' d' h)
        a d hInv

/-- One edge-target step of the fixpoint loop satisfies StepOK. -/
theorem targetStep_rtg {TO TI SO SI : Type} (po : PathOps TO SO) (pin : PathOps TI SI)
    (le : Summary SO SI → Summary SO SI → Bool) (s : SubgraphSt TO TI SO SI)
    (U : Finset Target) (loc : (Nat × Nat) ⊕ Nat) (hloc : LocOK s loc) (target : Target)
    (a : SummSt SO SI) (d : Bool) (hInv : InvSt s U a) :
    StepOK s le U (targetStep po pin le s loc (a, d) target) a d :=
  foldl_rtg (StateStep le U) (InvSt s U) (nsStep po pin le loc)
    (Subgraph.target_to_sources pin s target)
    (fun ns _ a' d' h => nsStep_rtg po pin le s U loc hloc ns a' d' h)
    a d hInv

/-- One child-output step of the fixpoint loop satisfies StepOK. -/
theorem outputStep_rtg {TO TI SO SI : Type} (po : PathOps TO SO) (pin : PathOps TI SI)
    (le : Summary SO SI → Summary SO SI → Bool) (s : SubgraphSt TO TI SO SI)
    (U : Finset Target) (scope : Nat) (hscope : scope < s.children.length)
    (output : Nat) (houtput : output < (s.children.getD scope dummyWrapper).outputs)
    (a : SummSt SO SI) (d : Bool) (hInv : InvSt s U a) :
    StepOK s le U (outputStep po pin le s scope (a, d) output) a d :=
  foldl_rtg (StateStep le U) (InvSt s U)
    (targetStep po pin le s (Sum.inl (scope, output)))
    ((s.children.getD scope dummyWrapper).edges.getD output [])
    (fun tg _ a' d' h =>
      targetStep_rtg po pin le s U (Sum.inl (scope, output)) ⟨hscope, houtput⟩ tg a' d' h)
    a d hInv

/-- One child step of the fixpoint loop satisfies StepOK. -/
theorem scopeStep_rtg {TO TI SO SI : Type} (po : PathOps TO SO) (pin : PathOps TI SI)
    (le : Summary SO SI → Summary SO SI → Bool) (s : SubgraphSt TO TI SO SI)
    (U : Finset Target) (scope : Nat) (hscope : scope < s.children.length)
    (a : SummSt SO SI) (d : Bool) (hInv : InvSt s U a) :
    StepOK s le U (scopeStep po pin le s (a, d) scope) a d :=
  foldl_rtg (StateStep le U) (InvSt s U) (outputStep po pin le s scope)
    (List.range (s.children.getD scope dummyWrapper).outputs)
    (fun output hout a' d' h =>
      outputStep_rtg po pin le s U scope hscope output (List.mem_range.mp hout) a' d' h)
    a d hInv

/-- One graph-input step of the fixpoint loop satisfies StepOK. -/
theorem inputStep_rtg {TO TI SO SI : Type} (po : PathOps TO SO) (pin : PathOps TI SI)
    (le : Summary SO SI → Summary SO SI → Bool) (s : SubgraphSt TO TI SO SI)
    (U : Finset Target) (input : Nat) (hinput : input < s.inputs)
    (a : SummSt SO SI) (d : Bool) (hInv : InvSt s U a) :
    StepOK s le U (inputStep po pin le s (a, d) input) a d :=
  foldl_rtg (StateStep le U) (InvSt s U) (targetStep po pin le s (Sum.inr input))
    (s.input_edges.getD input [])
    (fun tg _ a' d' h => targetStep_rtg po pin le s U (Sum.inr input) hinput tg a' d' h)
    a d hInv

/-- The sources half of a pass satisfies StepOK. -/
theorem passSources_rtg {TO TI SO SI : Type} (po : PathOps TO SO) (pin : PathOps TI SI)
    (le : Summary SO SI → Summary SO SI → Bool) (s : SubgraphSt TO TI SO SI)
    (U : Finset Target)
    (a : SummSt SO SI) (d : Bool) (hInv : InvSt s U a) :
    StepOK s le U (passSources po pin le s (a, d)) a d :=
  foldl_rtg (StateStep le U) (InvSt s U) (scopeStep po pin le s)
    (List.range s.children.length)
    (fun scope hscope a' d' h =>
      scopeStep_rtg po pin le s U scope (List.mem_range.mp hscope) a' d' h)
    a d hInv

/-- The inputs half of a pass satisfies StepOK. -/
theorem passInputs_rtg {TO TI SO SI : Type} (po : PathOps TO SO) (pin : PathOps TI SI)
    (le : Summary SO SI → Summary SO SI → Bool) (s : SubgraphSt TO TI SO SI)
    (U : Finset Target)
    (a : SummSt SO SI) (d : Bool) (hInv : InvSt s U a) :
    StepOK s le U (passInputs po pin le s (a, d)) a d :=
  foldl_rtg (StateStep le U) (InvSt s U) (inputStep po pin le s)
    (List.range s.inputs)
    (fun input hin a' d' h =>
      inputStep_rtg po pin le s U input (List.mem_range.mp hin) a' d' h)
    a d hInv

/-- A full pass of the fixpoint loop preserves the invariant, moves along
ReflTransGen of StateStep, and returning done = false witnesses at least one
real StateStep (the pass starts with done = true). -/
theorem passStep_rtg {TO TI SO SI : Type} (po : PathOps TO SO) (pin : PathOps TI SI)
    (le : Summary SO SI → Summary SO SI → Bool) (s : SubgraphSt TO TI SO SI)
    (U : Finset Target) (st : SummSt SO SI) (hInv : InvSt s U st) :
    InvSt s U (passStep po pin le s st).1 ∧
    Relation.ReflTransGen (StateStep le U) (passStep po pin le s st).1 st ∧
    ((passStep po pin le s st).2 = false →
      Relation.TransGen (StateStep le U) (passStep po pin le s st).1 st) := by
  obtain ⟨s1, r1, t1⟩ := passSources_rtg po pin le s U st true hInv
  obtain ⟨s2, r2, t2⟩ := passInputs_rtg po pin le s U
    (passSources po pin le s (st, true)).1 (passSources po pin le s (st, true)).2 s1
  refine ⟨s2, r2.trans r1, ?_⟩
  intro hf
  rcases t2 hf with h | h
  · rcases t1 h with h2 | h2
    · exact absurd h2 (by decide)
    · exact Relation.TransGen.trans_right r2 h2
  · exact Relation.TransGen.trans_left h r1

/-- getD through a map at an in-bounds index. -/
theorem getD_map_lt {A B : Type} (f : A → B) (d : B) (d' : A) :
    ∀ (l : List A) (i : Nat), i < l.length → (l.map f).getD i d = f (l.getD i d') := by
  intro l
  induction l with
  | nil => intro i h; simp at h
  | cons a l ih =>
      intro i h
      cases i with
      | zero => simp
      | succ n =>
          simp only [List.map_cons, List.getD_cons_succ]
          exact ih n (by simpa using h)

/-- The initial tables of set_summaries are well-shaped. -/
theorem shape_summInit {TO TI SO SI : Type} (s : SubgraphSt TO TI SO SI) :
    ShapeSt s (summInit s) := by
  unfold ShapeSt summInit
  refine ⟨by simp, ?_, by simp⟩
  intro i hi
  rw [getD_map_lt _ [] dummyWrapper s.children i hi]
  simp

/-- The initial tables satisfy the invariant for the universe of their own
targets. -/
theorem inv_summInit {TO TI SO SI : Type} (s : SubgraphSt TO TI SO SI) :
    InvSt s ((allTargetsSt (summInit s)).toFinset) (summInit s) :=
  ⟨shape_summInit s, fun _ ht => List.mem_toFinset.mpr ht⟩

/-- Accessibility of loop states for StateStep, by lexicographic descent on
the capacity and then on ListStep over the flattened antichains. -/
theorem acc_stateStep_aux {SO SI : Type} (le : Summary SO SI → Summary SO SI → Bool)
    (U : Finset Target) (hwf : WellFounded (AntichainStep le)) :
    ∀ (n : Nat) (l : List (Antichain (Summary SO SI))),
      Acc (ListStep (AntichainStep le)) l →
      ∀ (st : SummSt SO SI), capSt U st ≤ n → flattenSt st = l →
        Acc (StateStep le U) st := by
  intro n
  induction n with
  | zero =>
      intro l hl
      induction hl with
      | intro l _ ihl =>
          intro st hcap hfl
          constructor
          intro st' hstep
          rcases hstep with hlt | ⟨heq, hls⟩
          · exact absurd hlt (by omega)
          · rw [hfl] at hls
            exact ihl (flattenSt st') hls st' (by omega) rfl
  | succ n ihn =>
      intro l hl
      induction hl with
      | intro l _ ihl =>
          intro st hcap hfl
          constructor
          intro st' hstep
          rcases hstep with hlt | ⟨heq, hls⟩
          · exact ihn (flattenSt st') (listStep_acc hwf (flattenSt st')) st' (by omega) rfl
          · rw [hfl] at hls
            exact ihl (flattenSt st') hls st' (by omega) rfl

/-- StateStep is well-founded when AntichainStep for le is: the state's
capacity is a natural number and the flattened antichain tuple descends in
the well-founded ListStep order while the capacity is constant. -/
theorem stateStep_wf {SO SI : Type} (le : Summary SO SI → Summary SO SI → Bool)
    (U : Finset Target) (hwf : WellFounded (AntichainStep le)) :
    WellFounded (StateStep le U) := by
  constructor
  intro st
  exact acc_stateStep_aux le U hwf (capSt U st) (flattenSt st)
    (listStep_acc hwf (flattenSt st)) st (Nat.le_refl _) rfl

/-- The fixpoint loop halts on some fuel from any invariant state, by
well-founded descent: a pass that is not done took at least one StateStep. -/
theorem summLoop_exists {TO TI SO SI : Type} (po : PathOps TO SO) (pin : PathOps TI SI)
    (le : Summary SO SI → Summary SO SI → Bool) (s : SubgraphSt TO TI SO SI)
    (U : Finset Target)
    (hwfT : WellFounded (Relation.TransGen (StateStep le U))) :
    ∀ (st : SummSt SO SI), InvSt s U st →
      ∃ fuel st', summLoop po pin le s fuel st = some st' := by
  intro st hInv
  revert hInv
  refine @WellFounded.induction (SummSt SO SI) (Relation.TransGen (StateStep le U)) hwfT
    (fun st => InvSt s U st → ∃ fuel st', summLoop po pin le s fuel st = some st')
    st ?_
  intro st ih hInv
  by_cases hd : (passStep po pin le s st).2 = true
  · refine ⟨1, (passStep po pin le s st).1, ?_⟩
    unfold summLoop
    rw [if_pos hd]
  · have hf : (passStep po pin le s st).2 = false := by
      cases hb : (passStep po pin le s st).2
      · rfl
      · exact absurd hb hd
    obtain ⟨hInv2, _, ht⟩ := passStep_rtg po pin le s U st hInv
    obtain ⟨fuel, st', hloop⟩ := ih (passStep po pin le s st).1 (ht hf) hInv2
    refine ⟨fuel + 1, st', ?_⟩
    unfold summLoop
    rw [if_neg hd]
    exact hloop

/-- C3: for every subgraph (children, ports and edges are finite lists by
construction), the fixpoint loop of set_summaries terminates — some fuel
suffices and set_summaries returns a result — under the precondition that
the summary order is well-founded: each antichain can only change finitely
often under try_to_add_summary insertions, stated as well-foundedness of
AntichainStep for le. -/
theorem c3_set_summaries_terminates (TO TI SO SI : Type)
    (po : PathOps TO SO) (pin : PathOps TI SI)
    (le : Summary SO SI → Summary SO SI → Bool) (s : SubgraphSt TO TI SO SI)
    (hwf : WellFounded (AntichainStep le)) :
    ∃ fuel sr, Subgraph.set_summaries po pin le fuel s = some sr := by
  obtain ⟨fuel, st', hloop⟩ := summLoop_exists po pin le s
    ((allTargetsSt (summInit s)).toFinset)
    ((stateStep_wf le ((allTargetsSt (summInit s)).toFinset) hwf).transGen)
    (summInit s) (inv_summInit s)
  refine ⟨fuel,
    { s with
        source_summaries := st'.source_summaries,
        input_summaries := st'.input_summaries,
        target_summaries := buildTargetSummaries po pin le s st' }, ?_⟩
  unfold Subgraph.set_summaries
  rw [hloop]

/-- A successful insert strictly decreases the Unit-summary antichain rank. -/
theorem antichainRankUnit_decrease (a' a : Antichain (Summary Unit Unit))
    (h : AntichainStep leUnitSummary a' a) :
    antichainRankUnit a' < antichainRankUnit a := by
  have hToOuter : ∀ (e : Summary Unit Unit) (p q : Unit),
      leUnitSummary e (Summary.Outer p q) = true := by
    intro e p q
    cases e <;> rfl
  obtain ⟨x, hx⟩ := h
  unfold Antichain.insert at hx
  by_cases hany : a.elements.any (fun e => leUnitSummary e x)
  · rw [if_pos hany] at hx
    have hcontra : (false : Bool) = true := congrArg Prod.snd hx
    exact absurd hcontra (by decide)
  · rw [if_neg hany] at hx
    have h1 : (⟨a.elements.filter (fun e => !(leUnitSummary x e)) ++ [x]⟩ : Antichain _) = a' :=
      congrArg Prod.fst hx
    have helems : a'.elements = a.elements.filter (fun e => !(leUnitSummary x e)) ++ [x] := by
      rw [← h1]
    have hany2 : a.elements.any (fun e => leUnitSummary e x) = false := by
      cases hb : a.elements.any (fun e => leUnitSummary e x)
      · rfl
      · exact absurd hb hany
    have hall := List.any_eq_false.mp hany2
    cases x with
    | Local u =>
        have hnoLocal : a.elements.any (fun e => match e with
            | Summary.Local _ => true
            | Summary.Outer _ _ => false) = false := by
          rw [List.any_eq_false]
          intro e he
          cases e with
          | Local v => exact absurd rfl (hall _ he)
          | Outer p q => simp
        have hra : antichainRankUnit a = if a.elements.isEmpty then 2 else 1 := by
          unfold antichainRankUnit
          rw [if_neg (by simp [hnoLocal])]
        have hra2 : antichainRankUnit a' = 0 := by
          unfold antichainRankUnit
          rw [if_pos ?hp]
          case hp =>
            rw [helems]
            simp
        rw [hra, hra2]
        by_cases he : a.elements.isEmpty
        · rw [if_pos he]
          decide
        · rw [if_neg he]
          decide
    | Outer p q =>
        have hemp : a.elements = [] := by
          cases hel : a.elements with
          | nil => rfl
          | cons e rest =>
              exfalso
              apply hall e (by rw [hel]; exact List.mem_cons_self ..)
              exact hToOuter e p q
        have hra : antichainRankUnit a = 2 := by
          unfold antichainRankUnit
          rw [hemp]
          rfl
        have hra2 : antichainRankUnit a' = 1 := by
          unfold antichainRankUnit
          rw [helems, hemp]
          rfl
        rw [hra, hra2]
        decide

/-- AntichainStep over the Unit-summary order is well-founded, discharging
C3's precondition at a concrete instance. -/
theorem leUnitSummary_wf : WellFounded (AntichainStep leUnitSummary) := by
  have hsub : Subrelation (AntichainStep leUnitSummary)
      (InvImage (fun m n : Nat => m < n) antichainRankUnit) := by
    intro a' a h
    exact antichainRankUnit_decrease a' a h
  exact Subrelation.wf hsub (InvImage.wf antichainRankUnit (Nat.lt_wfRel.wf))

/-- Witness for C3: the claim theorem applied to the concrete Unit self-loop
subgraph, its well-foundedness hypothesis discharged by leUnitSummary_wf. -/
theorem c3_set_summaries_terminates_witness :
    ∃ fuel sr, Subgraph.set_summaries unitOps unitOps leUnitSummary fuel c3StateW = some sr :=
  c3_set_summaries_terminates Unit Unit Unit Unit unitOps unitOps leUnitSummary c3StateW
    leUnitSummary_wf

end Timely
